import Mathlib

/-! Monte Carlo estimation drivers (ichramm/mmc): a shallow embedding.

Doubles are read as elements of an arbitrary linearly ordered field `α`
(exact arithmetic), `size_t` as a natural number below `2 ^ 64` with
wrap-around, and the library functions the sources call (`std::sqrt`,
`boost::math::quantile`, the SFMT generator) are parameters. For the online
variance loop the rounding of double arithmetic is also written out
(`rounded_loop_body`, with `binary64_round` for the binary64 format).
-/

namespace MMC

/-! ## Machine integers and double division -/

/-- The modulus of `size_t` arithmetic on the 64-bit targets the drivers are built for. -/
def SIZE_MOD : Nat := 2 ^ 64

/-- Unsigned `a + b` on `size_t`. -/
def size_add (a b : Nat) : Nat := (a + b) % SIZE_MOD

/-- Unsigned `a - b` on `size_t` (operands below `2 ^ 64`): wraps when `a < b`. -/
def size_sub (a b : Nat) : Nat := (a + SIZE_MOD - b) % SIZE_MOD

/-- Unsigned `a * b` on `size_t`. -/
def size_mul (a b : Nat) : Nat := (a * b) % SIZE_MOD

/-- Unsigned `a / b` on `size_t`: an integer division by zero has no result. -/
def size_div (a b : Nat) : Option Nat := if b = 0 then none else some (a / b)

/-- Double division `x / y` in exact arithmetic. With a zero divisor IEEE-754
gives NaN or an infinity: `none` stands for such a non-finite value. -/
def fdiv {α : Type} [LinearOrderedField α] (x y : α) : Option α :=
  if y = 0 then none else some (x / y)

/-- Conversion of an integral double to `size_t`; it is undefined when the value
is negative or does not fit. -/
def to_size_t (c : ℤ) : Option Nat :=
  if 0 ≤ c ∧ c < (SIZE_MOD : ℤ) then some c.toNat else none

/-- The loop `for (j = lo; j < hi; ++j) s = body(j, s)`. -/
def for_loop {β : Type} (body : Nat → β → β) (lo hi : Nat) (init : β) : β :=
  (List.range' lo (hi - lo)).foldl (fun s j => body j s) init

/-! ## The SFMT generator -/

/-- Modelled from the spec: the generator state `sfmt_t` of sfmt/SFMT.h, which is
not among the sources. The generator is a deterministic stream determined by
its seed, so a state is the seed together with the number of values drawn. -/
structure sfmt_t where
  seed : Nat
  pos : Nat
deriving DecidableEq

/-- Modelled from the spec: `sfmt_init_gen_rand(&st, seed)` of sfmt/SFMT.h
restarts the stream of `seed`. -/
def sfmt_init_gen_rand (seed : Nat) : sfmt_t := ⟨seed, 0⟩

/-- Modelled from the spec: `sfmt_genrand_real1(&st)` of sfmt/SFMT.h returns the
next value of the stream and advances the state. -/
def sfmt_genrand_real1 {α : Type} (stream : Nat → Nat → α) (st : sfmt_t) : α × sfmt_t :=
  (stream st.seed st.pos, ⟨st.seed, st.pos + 1⟩)

/-- The stream positions (seed, index) drawn between two generator states. -/
def drawn_between (s0 s1 : sfmt_t) : List (Nat × Nat) :=
  (List.range' s0.pos (s1.pos - s0.pos)).map (fun i => (s0.seed, i))

/-! ## integration_261.cpp -/

namespace Integration261

/-- The constant `center`. -/
def center (α : Type) [LinearOrderedField α] : α × α := (1 / 2, 1 / 2)

/-- The constant `radius`. -/
def radius (α : Type) [LinearOrderedField α] : α := 4 / 10

/-- The constant `sqradius`. -/
def sqradius (α : Type) [LinearOrderedField α] : α := radius α * radius α

/-- The constant `height`. -/
def height (α : Type) [LinearOrderedField α] : α := 8

/-- The height function `K_fn`: a cone over the disc, zero outside of it. -/
def K_fn {α : Type} [LinearOrderedField α] (sqrt : α → α) (point : α × α) : α :=
  let dist_sq := (point.1 - (center α).1) ^ 2 + (point.2 - (center α).2) ^ 2
  if dist_sq ≤ sqradius α then height α - height α / radius α * sqrt dist_sq else 0

/-- The braced initialiser of a `Vector2` from two consecutive draws. -/
def draw_point {α : Type} (stream : Nat → Nat → α) (st : sfmt_t) : (α × α) × sfmt_t :=
  let x := sfmt_genrand_real1 stream st
  let y := sfmt_genrand_real1 stream x.2
  ((x.1, y.1), y.2)

/-- The variables the sampling loop of `run_simulation` updates. -/
structure LoopState (α : Type) where
  rnd_state : sfmt_t
  S : α
  T : α

/-- One iteration of the loop of `run_simulation` (lines 57-67): a point is
tossed, and `T` is updated with the value `S` had before the new sample is
added. The way a point is tossed is the argument `toss`: `draw_point` here,
`toss_point` in va_simulation_411.cpp, whose loop is otherwise the same text. -/
def loop_body {α : Type} [LinearOrderedField α] (toss : sfmt_t → (α × α) × sfmt_t)
    (sqrt : α → α) (j : Nat) (s : LoopState α) : LoopState α :=
  let p := toss s.rnd_state
  let k_of_z := K_fn sqrt p.1
  ⟨p.2, s.S + k_of_z, s.T + (1 - 1 / (((j + 1 : Nat) : α))) * (k_of_z - s.S / (j : α)) ^ 2⟩

/-- Lines 43-67 of `run_simulation`: seeding with 35141, the initial assignment
of `S` from a first point, and the loop over `j = 1 .. N - 1`. -/
def accumulate {α : Type} [LinearOrderedField α] (toss : sfmt_t → (α × α) × sfmt_t)
    (sqrt : α → α) (N : Nat) : LoopState α :=
  let p := toss (sfmt_init_gen_rand 35141)
  for_loop (loop_body toss sqrt) 1 N ⟨p.2, K_fn sqrt p.1, 0⟩

/-- The confidence half-width of line 77: `z * pow(sigma_sq / N, 0.5)`. -/
def half_width {α : Type} [LinearOrderedField α] (sqrt : α → α) (z sigma_sq : α) (N : Nat) :
    Option α :=
  (fdiv sigma_sq (N : α)).map (fun q => z * sqrt q)

/-- The values `run_simulation` prints; `sigma_sq` is also its return value. -/
structure Report (α : Type) where
  z_hat : Option α
  sigma_sq : Option α
  var_of_z : Option α
  error : Option α

/-- The function `run_simulation` of integration_261.cpp. -/
def run_simulation {α : Type} [LinearOrderedField α] (stream : Nat → Nat → α) (sqrt : α → α)
    (quantile : α → α) (N : Nat) : Report α :=
  let s := accumulate (draw_point stream) sqrt N
  let z_hat := fdiv s.S (N : α)
  let sigma_sq := fdiv s.T ((size_sub N 1 : Nat) : α)
  let var_of_z := sigma_sq.bind (fun v => fdiv v (N : α))
  let delta : α := 5 / 100
  let error := sigma_sq.bind (fun v => half_width sqrt (quantile (1 - delta / 2)) v N)
  ⟨z_hat, sigma_sq, var_of_z, error⟩

/-- The stream positions a call `run_simulation(N)` draws. -/
def run_draws {α : Type} [LinearOrderedField α] (stream : Nat → Nat → α) (sqrt : α → α)
    (N : Nat) : List (Nat × Nat) :=
  drawn_between (sfmt_init_gen_rand 35141) (accumulate (draw_point stream) sqrt N).rnd_state

/-- The constant `DELTA` of `main`. -/
def DELTA (α : Type) [LinearOrderedField α] : α := 5 / 100

/-- The constant `EPSILON` of `main`. -/
def EPSILON (α : Type) [LinearOrderedField α] : α := 1 / 1000

/-- Line 110 of `main`, with the quantile `z` and the target `epsilon` as arguments:
`size_t nN = std::ceil(std::pow(z, 2) * sigma_sq / std::pow(epsilon, 2))`. -/
def sized_count {α : Type} [LinearOrderedField α] [FloorRing α] (z sigma_sq epsilon : α) :
    Option Nat :=
  (fdiv (z ^ 2 * sigma_sq) (epsilon ^ 2)).bind (fun q => to_size_t ⌈q⌉)

/-- The sample count `nN` that `main` computes from the pilot run on `N` samples. -/
def main_nN {α : Type} [LinearOrderedField α] [FloorRing α] (stream : Nat → Nat → α)
    (sqrt : α → α) (quantile : α → α) (N : Nat) : Option Nat :=
  (run_simulation stream sqrt quantile N).sigma_sq.bind
    (fun sigma_sq => sized_count (quantile (1 - DELTA α / 2)) sigma_sq (EPSILON α))

/-- The body of `main` after `N` is parsed: the report of the pilot run and, when
`nN` is defined, `nN` and the report of the second run. -/
def main_runs {α : Type} [LinearOrderedField α] [FloorRing α] (stream : Nat → Nat → α)
    (sqrt : α → α) (quantile : α → α) (N : Nat) : Report α × Option (Nat × Report α) :=
  (run_simulation stream sqrt quantile N,
   (main_nN stream sqrt quantile N).map (fun nN => (nN, run_simulation stream sqrt quantile nN)))

/-- The generator state before the sample numbered `i` (from 0) is tossed. -/
def nth_state {α : Type} (toss : sfmt_t → (α × α) × sfmt_t) : Nat → sfmt_t
  | 0 => sfmt_init_gen_rand 35141
  | i + 1 => (toss (nth_state toss i)).2

/-- The sample values `k_1, k_2, ...` of a run, numbered from 0: the height
function at the successive points tossed from the stream seeded with 35141. -/
def sample {α : Type} [LinearOrderedField α] (toss : sfmt_t → (α × α) × sfmt_t)
    (sqrt : α → α) (i : Nat) : α :=
  K_fn sqrt (toss (nth_state toss i)).1

end Integration261

/-! ## counting_371.cpp -/

namespace Counting371

/-- The function `power`, on `size_t`. -/
def power (base : Nat) : Nat → Nat
  | 0 => 1
  | exponent + 1 => size_mul base (power base exponent)

/-- The tuple `montecarlo_couting` returns. `Cn` and `VCn` are `size_t` values,
the others doubles. -/
structure Estimates (α : Type) where
  Cn : Nat
  VCn : Nat
  StdDev : α
  errorAC : Option α
  errorN : α

/-- The sampling loop of `montecarlo_couting` (lines 56-67): the success counter
`S` after `N` solutions, and the state of the solution maker. The closure
`solution_maker` is a function of the generator state it captures;
`find_if_not(...) == subsets.end()` holds when every predicate accepts the
solution. The counter cannot wrap, being at most the loop index. -/
def count_successes {σ Sol : Type} (solution_maker : σ → Sol × σ)
    (subsets : List (Sol → Bool)) (N : Nat) (st : σ) : Nat × σ :=
  for_loop
    (fun _ s =>
      let solution := solution_maker s.2
      (if subsets.all (fun f => f solution.1) then s.1 + 1 else s.1, solution.2))
    0 N (0, st)

/-- Lines 69-79 of `montecarlo_couting`: the estimates derived from the success
counter `S`. `r * S / N` and `Cn * (r - Cn) / (N - 1)` are `size_t` expressions,
so the divisions are integer divisions, with no result when the divisor is zero. -/
def estimates {α : Type} [LinearOrderedField α] (sqrt quantile : α → α) (r N S : Nat)
    (delta : α) : Option (Estimates α) :=
  (size_div (size_mul r S) N).bind (fun (Cn : Nat) =>
    (size_div (size_mul Cn (size_sub r Cn)) (size_sub N 1)).map (fun (VCn : Nat) =>
      let StdDev := sqrt (VCn : α)
      let n_hat : α := ((size_add N 4 : Nat) : α)
      let p_hat := fdiv ((size_add S 2 : Nat) : α) n_hat
      let errorAC := p_hat.bind (fun (p : α) =>
        (fdiv 1 (sqrt n_hat)).map (fun (inv : α) =>
          (r : α) * quantile (1 - delta / 2) * inv * sqrt (p * (1 - p))))
      let errorN := quantile (1 - delta / 2) * sqrt (VCn : α)
      ⟨Cn, VCn, StdDev, errorAC, errorN⟩))

/-- The function `montecarlo_couting<r, K>`, with `K` the length of `subsets`. -/
def montecarlo_couting {α : Type} [LinearOrderedField α] {σ Sol : Type}
    (sqrt quantile : α → α) (r : Nat) (N : Nat) (solution_maker : σ → Sol × σ)
    (subsets : List (Sol → Bool)) (delta : α) (st : σ) : Option (Estimates α) :=
  estimates sqrt quantile r N (count_successes solution_maker subsets N st).1 delta

end Counting371

/-! ## The worker blocks of integration_231.cpp, randomgen_481.cpp and
total_work_time_estimation.cpp -/

/-- The first index `i * N / num_threads` of the block of worker `i`, a `size_t`
expression. Worker `i` exists only when `i < num_threads`, so the divisor is
not zero. -/
def block_begin (i N num_threads : Nat) : Nat := size_mul i N / num_threads

/-- The end `(i + 1) * N / num_threads` of the block of worker `i`. -/
def block_end (i N num_threads : Nat) : Nat := size_mul (i + 1) N / num_threads

/-! ## integration_231.cpp -/

namespace Integration231

/-- The constant `hs_center`. -/
def hs_center (α : Type) [LinearOrderedField α] : Fin 6 → α :=
  ![45 / 100, 5 / 10, 6 / 10, 6 / 10, 5 / 10, 45 / 100]

/-- The constant `hs_radius`. -/
def hs_radius (α : Type) [LinearOrderedField α] : α := 35 / 100

/-- The constant `hs_sqradius`. -/
def hs_sqradius (α : Type) [LinearOrderedField α] : α := hs_radius α * hs_radius α

/-- The braced initialiser of an `M_Vector` from six consecutive draws. -/
def draw_vector {α : Type} (stream : Nat → Nat → α) (st : sfmt_t) : (Fin 6 → α) × sfmt_t :=
  let x0 := sfmt_genrand_real1 stream st
  let x1 := sfmt_genrand_real1 stream x0.2
  let x2 := sfmt_genrand_real1 stream x1.2
  let x3 := sfmt_genrand_real1 stream x2.2
  let x4 := sfmt_genrand_real1 stream x3.2
  let x5 := sfmt_genrand_real1 stream x4.2
  (![x0.1, x1.1, x2.1, x3.1, x4.1, x5.1], x5.2)

/-- The condition under which a point is counted (lines 47-58). -/
def in_region {α : Type} [LinearOrderedField α] (extra_restrictions : Bool)
    (point : Fin 6 → α) : Bool :=
  let distance_vector : Fin 6 → α := fun i => point i - hs_center α i
  let sq_distance := ∑ i : Fin 6, distance_vector i * distance_vector i
  decide (sq_distance ≤ hs_sqradius α) &&
    (!extra_restrictions ||
      (decide (3 * point 0 + 7 * point 3 ≤ 5) &&
        decide (point 2 + point 3 ≤ 1) &&
        decide (point 0 - point 1 - point 4 + point 5 ≥ 0)))

/-- The thread of worker `i` (lines 33-63): its counter `acc` and its generator
after the loop over its block. The seed is passed as a 32-bit value. -/
def worker {α : Type} [LinearOrderedField α] (stream : Nat → Nat → α)
    (extra_restrictions : Bool) (N num_threads i : Nat) : Nat × sfmt_t :=
  for_loop
    (fun _ s =>
      let point := draw_vector stream s.2
      (if in_region extra_restrictions point.1 then s.1 + 1 else s.1, point.2))
    (block_begin i N num_threads) (block_end i N num_threads)
    (0, sfmt_init_gen_rand (size_mul (i + 1) 10000 % 2 ^ 32))

/-- The number of points worker `i` tossed: six draws are made for each. -/
def worker_trials {α : Type} [LinearOrderedField α] (stream : Nat → Nat → α)
    (extra_restrictions : Bool) (N num_threads i : Nat) : Nat :=
  (worker stream extra_restrictions N num_threads i).2.pos / 6

/-- The number of points tossed by all the workers together. -/
def total_trials {α : Type} [LinearOrderedField α] (stream : Nat → Nat → α)
    (extra_restrictions : Bool) (N num_threads : Nat) : Nat :=
  ((List.range num_threads).map (worker_trials stream extra_restrictions N num_threads)).sum

/-- The values `run_simulation` prints. -/
structure Report (α : Type) where
  lambda_hat : Option α
  variance : Option α
  stddev : Option α

/-- The function `run_simulation` of integration_231.cpp: the workers, which
share no state, fill one slot each, and the slots are summed. -/
def run_simulation {α : Type} [LinearOrderedField α] (stream : Nat → Nat → α)
    (sqrt : α → α) (N num_threads : Nat) (extra_restrictions : Bool) : Report α :=
  let slots : List α := (List.range num_threads).map
    (fun i => ((worker stream extra_restrictions N num_threads i).1 : α))
  let lambda_hat := fdiv (slots.foldl (fun a b => a + b) 0) (N : α)
  let variance := lambda_hat.bind (fun l => fdiv (l * (1 - l)) ((size_sub N 1 : Nat) : α))
  ⟨lambda_hat, variance, variance.map sqrt⟩

end Integration231

/-! ## va_simulation_411.cpp -/

namespace VaSimulation411

open Integration261

/-- The function `rational_approximation` (Abramowitz and Stegun 26.2.23). -/
def rational_approximation {α : Type} [LinearOrderedField α] (p : α) : α :=
  p - ((10328 / 1000000 * p + 802853 / 1000000) * p + 2515517 / 1000000)
    / (((1308 / 1000000 * p + 189269 / 1000000) * p + 1432788 / 1000000) * p + 1)

/-- The function `normal_cdf_inverse`; `std::sqrt` and `std::log` are arguments. -/
def normal_cdf_inverse {α : Type} [LinearOrderedField α] (sqrt log : α → α) (p : α) : α :=
  if p < 1 / 2 then -rational_approximation (sqrt (-2 * log p))
  else rational_approximation (sqrt (-2 * log (1 - p)))

/-- The function `random_normal`, as built by default (`USE_INVERSE_TRANSFORM` is 1
and `USE_CDFLIB` is not defined). -/
def random_normal {α : Type} [LinearOrderedField α] (stream : Nat → Nat → α)
    (sqrt log : α → α) (st : sfmt_t) : α × sfmt_t :=
  let x := sfmt_genrand_real1 stream st
  (normal_cdf_inverse sqrt log x.1, x.2)

/-- The function `random_squared`. -/
def random_squared {α : Type} [LinearOrderedField α] (stream : Nat → Nat → α)
    (sqrt : α → α) (st : sfmt_t) : α × sfmt_t :=
  let x := sfmt_genrand_real1 stream st
  (sqrt x.1, x.2)

/-- The function `toss_point`. When `norm` is zero both quotients are `0 / 0`, the
coordinates are NaN and `K_fn`, whose comparison then fails, returns 0: the point
(0, 0), which lies outside the disc, stands for that point. -/
def toss_point {α : Type} [LinearOrderedField α] (stream : Nat → Nat → α)
    (sqrt log : α → α) (st : sfmt_t) : (α × α) × sfmt_t :=
  let r := random_squared stream sqrt st
  let z1 := random_normal stream sqrt log r.2
  let z2 := random_normal stream sqrt log z1.2
  let norm := sqrt (z1.1 * z1.1 + z2.1 * z2.1)
  if norm = 0 then ((0, 0), z2.2)
  else
    let x1 := r.1 * z1.1 / norm
    let x2 := r.1 * z2.1 / norm
    ((1 / 2 + x1 * radius α, 1 / 2 + x2 * radius α), z2.2)

/-- The function `run_simulation` of va_simulation_411.cpp: the loop of
integration_261.cpp over points tossed by `toss_point`, then `S` and `T` are each
multiplied by `radius * radius * M_PI` (lines 143 and 146) before the estimates
are derived. The constant `M_PI` is the argument `pi`. -/
def run_simulation {α : Type} [LinearOrderedField α] (stream : Nat → Nat → α)
    (sqrt log quantile : α → α) (pi : α) (N : Nat) : Report α :=
  let s := accumulate (toss_point stream sqrt log) sqrt N
  let S := s.S * (radius α * radius α * pi)
  let T := s.T * (radius α * radius α * pi)
  let z_hat := fdiv S (N : α)
  let sigma_sq := fdiv T ((size_sub N 1 : Nat) : α)
  let var_of_z := sigma_sq.bind (fun v => fdiv v (N : α))
  let delta : α := 5 / 100
  let error := sigma_sq.bind (fun v => half_width sqrt (quantile (1 - delta / 2)) v N)
  ⟨z_hat, sigma_sq, var_of_z, error⟩

end VaSimulation411

/-! ## The command lines of the drivers -/

/-- What `std::stoll` does with a string: it returns a `long long`, or throws
`std::invalid_argument` (no conversion could be performed) or
`std::out_of_range`. -/
inductive StollResult where
  | value (v : Int)
  | invalid_argument
  | out_of_range
deriving DecidableEq

/-- How a run of `main` ends: after the usage line, after the report of an invalid
argument, after a file could not be opened (each with the value returned), by an
exception that leaves `main`, or after the estimation ran on `N` samples. -/
inductive MainOutcome where
  | usage (code : Nat)
  | invalid_argument (code : Nat)
  | could_not_open (code : Nat)
  | terminated
  | ran (N : Nat) (code : Nat)
deriving DecidableEq

/-- The exit code of the process, when `main` returns. -/
def MainOutcome.exit_code : MainOutcome → Option Nat
  | .usage code => some code
  | .invalid_argument code => some code
  | .could_not_open code => some code
  | .terminated => none
  | .ran _ code => some code

/-- Whether an estimation was run. -/
def MainOutcome.ran_estimation : MainOutcome → Bool
  | .ran _ _ => true
  | _ => false

/-- Conversion of a `long long` to `size_t`. -/
def ll_to_size_t (v : Int) : Nat := (v % (SIZE_MOD : Int)).toNat

/-- Conversion of a `long long` to `int` (32 bits, two's complement). -/
def ll_to_int (v : Int) : Int := (v + 2 ^ 31) % 2 ^ 32 - 2 ^ 31

/-- A model of `std::stoll` on decimal input, for the worked examples: leading
white space, an optional sign, then the longest run of digits. -/
def stoll_decimal (s : String) : StollResult :=
  let cs := s.toList.dropWhile Char.isWhitespace
  let signed : Bool × List Char :=
    match cs with
    | '-' :: rest => (true, rest)
    | '+' :: rest => (false, rest)
    | _ => (false, cs)
  let digits := signed.2.takeWhile Char.isDigit
  if digits.isEmpty then StollResult.invalid_argument
  else
    let n : Nat := digits.foldl (fun a c => 10 * a + (c.toNat - 48)) 0
    let v : Int := if signed.1 then -(n : Int) else (n : Int)
    if v < -(2 ^ 63) ∨ 2 ^ 63 - 1 < v then StollResult.out_of_range else StollResult.value v

/-- The try block shared by the mains of integration_231, integration_261,
va_simulation_411 and randomgen_481: only `std::invalid_argument` is caught. -/
def parse_N (stoll : String → StollResult) (arg : String)
    (continue_with : Nat → MainOutcome) : MainOutcome :=
  match stoll arg with
  | .value v => continue_with (ll_to_size_t v)
  | .invalid_argument => MainOutcome.invalid_argument 1
  | .out_of_range => MainOutcome.terminated

/-- The function `main` of integration_231.cpp: `argv` holds the program name and
the arguments. -/
def Integration231.main (stoll : String → StollResult) (argv : List String) : MainOutcome :=
  if argv.length < 2 ∨ argv.length > 3 then MainOutcome.usage 1
  else
    match argv with
    | _ :: arg :: _ => parse_N stoll arg (fun N => MainOutcome.ran N 0)
    | _ => MainOutcome.usage 1

/-- The function `main` of integration_261.cpp. -/
def Integration261.main (stoll : String → StollResult) (argv : List String) : MainOutcome :=
  if argv.length < 2 then MainOutcome.usage 1
  else
    match argv with
    | _ :: arg :: _ => parse_N stoll arg (fun N => MainOutcome.ran N 0)
    | _ => MainOutcome.usage 1

/-- The function `main` of va_simulation_411.cpp. -/
def VaSimulation411.main (stoll : String → StollResult) (argv : List String) : MainOutcome :=
  if argv.length < 2 then MainOutcome.usage 1
  else
    match argv with
    | _ :: arg :: _ => parse_N stoll arg (fun N => MainOutcome.ran N 0)
    | _ => MainOutcome.usage 1

/-- The function `main` of randomgen_481.cpp; `file_opens` tells whether the file
named by the second argument can be opened. -/
def Randomgen481.main (stoll : String → StollResult) (file_opens : String → Bool)
    (argv : List String) : MainOutcome :=
  if argv.length < 3 then MainOutcome.usage 1
  else
    match argv with
    | _ :: arg :: file :: _ =>
      parse_N stoll arg (fun N =>
        if file_opens file then MainOutcome.ran N 0 else MainOutcome.could_not_open 1)
    | _ => MainOutcome.usage 1

/-- The function `main` of counting_371.cpp: `N` is an `int` that starts at 1000
and is overwritten by `std::stoll(argv[1])` when an argument is given; the call is
in no try block, so that any exception of `std::stoll` leaves `main`. -/
def Counting371.main (stoll : String → StollResult) (argv : List String) : MainOutcome :=
  match argv with
  | _ :: arg :: _ =>
    match stoll arg with
    | .value v => MainOutcome.ran (ll_to_size_t (ll_to_int v)) 0
    | .invalid_argument => MainOutcome.terminated
    | .out_of_range => MainOutcome.terminated
  | _ => MainOutcome.ran 1000 0

/-! ## counting_371.cpp: the solutions of a run -/

/-- The state of the solution maker before the sample numbered `i` (from 0) is made. -/
def Counting371.maker_state {σ Sol : Type} (solution_maker : σ → Sol × σ) (st : σ) : Nat → σ
  | 0 => st
  | i + 1 => (solution_maker (Counting371.maker_state solution_maker st i)).2

/-- The sample numbered `i` (from 0) that `solution_maker()` returns during a run. -/
def Counting371.nth_solution {σ Sol : Type} (solution_maker : σ → Sol × σ) (st : σ)
    (i : Nat) : Sol :=
  (solution_maker (Counting371.maker_state solution_maker st i)).1

/-! ## counting_371.cpp: random assignments and the predicates of `main` -/

/-- Modelled from the spec: `sfmt_genrand_uint32(&st)` of sfmt/SFMT.h returns the
next 32-bit value of the stream and advances the state. -/
def sfmt_genrand_uint32 (stream32 : Nat → Nat → Nat) (st : sfmt_t) : Nat × sfmt_t :=
  (stream32 st.seed st.pos % 2 ^ 32, ⟨st.seed, st.pos + 1⟩)

namespace Counting371

/-- The loop of `random_assignment` (lines 41-43): entry `i` of the array is the next
32-bit value modulo `NumProfessors`. -/
def random_assignment_loop (stream32 : Nat → Nat → Nat) (NumStudents NumProfessors : Nat)
    (st : sfmt_t) : List Nat × sfmt_t :=
  for_loop
    (fun _ s =>
      let x := sfmt_genrand_uint32 stream32 s.2
      (s.1 ++ [x.1 % NumProfessors], x.2))
    0 NumStudents ([], st)

/-- The function `random_assignment<NumStudents, NumProfessors>`: with no professor
the first entry is a remainder of a division by zero, which has no result. -/
def random_assignment (stream32 : Nat → Nat → Nat) (NumStudents NumProfessors : Nat)
    (st : sfmt_t) : Option (List Nat × sfmt_t) :=
  if NumProfessors = 0 ∧ 0 < NumStudents then none
  else some (random_assignment_loop stream32 NumStudents NumProfessors st)

/-- The function `students_assignment<NumStudents, NumProfesors, K>`. -/
def students_assignment {α : Type} [LinearOrderedField α] (sqrt quantile : α → α)
    (stream32 : Nat → Nat → Nat) (NumStudents NumProfesors : Nat) (N : Nat)
    (set_functions : List (List Nat → Bool)) (delta : α) : Option (Estimates α) :=
  if NumProfesors = 0 ∧ 0 < NumStudents ∧ 0 < N then none
  else
    montecarlo_couting sqrt quantile (power NumProfesors NumStudents) N
      (random_assignment_loop stream32 NumStudents NumProfesors) set_functions delta
      (sfmt_init_gen_rand 54321)

/-- The array `students` of `main` (bit flags: Spanish 1, English 2, French 4,
Portuguese 8). -/
def students : List Nat := [3, 6, 9, 10, 4, 7, 2, 9, 12, 1]

/-- The array `professors` of `main`. -/
def professors : List Nat := [7, 10, 6, 5]

/-- The loop of the predicate `language_matches` from index `student` on, for
`remaining` more students. An array subscript out of bounds has no result. -/
def language_matches_loop (professors students assignment : List Nat) :
    Nat → Nat → Option Bool
  | _, 0 => some true
  | student, remaining + 1 =>
    assignment[student]?.bind (fun professor =>
      professors[professor]?.bind (fun p =>
        students[student]?.bind (fun s =>
          if p &&& s = 0 then some false
          else language_matches_loop professors students assignment (student + 1) remaining)))

/-- The predicate `language_matches` of `main`, with the arrays it captures. -/
def language_matches (professors students assignment : List Nat) : Option Bool :=
  language_matches_loop professors students assignment 0 assignment.length

/-- The predicate `student_count_check` of `main`; `counts` has one entry for each
professor. An array subscript out of bounds has no result. -/
def student_count_check (NumProfessors : Nat) (assignment : List Nat) : Option Bool :=
  (assignment.foldl
    (fun (counts : Option (List Nat)) professor =>
      counts.bind (fun (tally : List Nat) =>
        tally[professor]?.map (fun count => tally.set professor (count + 1))))
    (some (List.replicate NumProfessors 0))).map
    (fun tally => tally.all (fun count => !(count == 0 || decide (count > 4))))

end Counting371

/-! ## total_work_time_estimation.cpp -/

namespace TotalWorkTime

/-- The call operator of `unif_generator<a, b>` applied to the value `u` that the
generator returns: `a + u * range`, with `range = b - a` a `size_t`. -/
def unif_generator {α : Type} [LinearOrderedField α] (a b : Nat) (u : α) : α :=
  (a : α) + u * ((size_sub b a : Nat) : α)

/-- The struct `acumulator`. -/
structure acumulator (α : Type) where
  simple : α
  squared : α

/-- The body of the loop of `estimate_range` up to `t10f` (lines 66-85): ten
durations drawn in the order `T1() .. T10()` and the finishing time of the last
task. The thread-local generator (`genrand` of mt19937.h by default) is a stream
like that of SFMT. -/
def sample_time {α : Type} [LinearOrderedField α] (stream : Nat → Nat → α) (st : sfmt_t) :
    α × sfmt_t :=
  let u1 := sfmt_genrand_real1 stream st
  let u2 := sfmt_genrand_real1 stream u1.2
  let u3 := sfmt_genrand_real1 stream u2.2
  let u4 := sfmt_genrand_real1 stream u3.2
  let u5 := sfmt_genrand_real1 stream u4.2
  let u6 := sfmt_genrand_real1 stream u5.2
  let u7 := sfmt_genrand_real1 stream u6.2
  let u8 := sfmt_genrand_real1 stream u7.2
  let u9 := sfmt_genrand_real1 stream u8.2
  let u10 := sfmt_genrand_real1 stream u9.2
  let x1 := unif_generator 40 56 u1.1
  let x2 := unif_generator 24 32 u2.1
  let x3 := unif_generator 20 40 u3.1
  let x4 := unif_generator 16 48 u4.1
  let x5 := unif_generator 10 30 u5.1
  let x6 := unif_generator 15 30 u6.1
  let x7 := unif_generator 20 25 u7.1
  let x8 := unif_generator 30 50 u8.1
  let x9 := unif_generator 40 60 u9.1
  let x10 := unif_generator 8 16 u10.1
  let t2f := x1 + x2
  let t3f := x1 + x3
  let t4f := max t2f t3f + x4
  let t5f := max t2f t3f + x5
  let t6f := t3f + x6
  let t7f := t3f + x7
  let t8f := max (max (max t4f t5f) t6f) t7f + x8
  let t9f := t5f + x9
  let t10f := max (max t7f t8f) t9f + x10
  (t10f, u10.2)

/-- The function `estimate_range`: the accumulator stored in `mem[i]`, and the
generator of the thread, after the loop over the block. -/
def estimate_range {α : Type} [LinearOrderedField α] (stream : Nat → Nat → α) (st : sfmt_t)
    (begin_index end_index : Nat) : acumulator α × sfmt_t :=
  for_loop
    (fun _ s =>
      let t10f := sample_time stream s.2
      (⟨s.1.simple + t10f.1, s.1.squared + t10f.1 * t10f.1⟩, t10f.2))
    begin_index end_index (⟨0, 0⟩, st)

/-- The thread of worker `i` in `run_simulation` (lines 102-111): it seeds its
generator with `(i + 1) * 10000` and runs `estimate_range` over its block. -/
def worker {α : Type} [LinearOrderedField α] (stream : Nat → Nat → α)
    (N num_threads i : Nat) : acumulator α :=
  (estimate_range stream (sfmt_init_gen_rand (size_mul (i + 1) 10000))
    (block_begin i N num_threads) (block_end i N num_threads)).1

/-- The values `run_simulation` prints. -/
structure Report (α : Type) where
  x_hat : Option α
  v_hat : Option α
  stddev : Option α

/-- The function `run_simulation` of total_work_time_estimation.cpp: the sums of
the slots, then `x_hat` and `v_hat`; `N * (N - 1)` is a `size_t` product. -/
def run_simulation {α : Type} [LinearOrderedField α] (stream : Nat → Nat → α)
    (sqrt : α → α) (N num_threads : Nat) : Report α :=
  let slots : List (acumulator α) := (List.range num_threads).map (worker stream N num_threads)
  let x_hat := fdiv (slots.foldl (fun a slot => a + slot.simple) 0) (N : α)
  let v_hat :=
    (fdiv (slots.foldl (fun a slot => a + slot.squared) 0)
      ((size_mul N (size_sub N 1) : Nat) : α)).bind (fun (first : α) =>
        x_hat.bind (fun (mean : α) =>
          (fdiv (mean * mean) ((size_sub N 1 : Nat) : α)).map (fun (second : α) =>
            first - second)))
  ⟨x_hat, v_hat, v_hat.map sqrt⟩

/-- The samples of worker `i`, in the order it draws them: the sample numbered `m`
of a worker uses the ten values of its stream from position `10 * m`. -/
def worker_samples {α : Type} [LinearOrderedField α] (stream : Nat → Nat → α)
    (N num_threads i : Nat) : List α :=
  (List.range (block_end i N num_threads - block_begin i N num_threads)).map
    (fun m => (sample_time stream ⟨size_mul (i + 1) 10000, 10 * m⟩).1)

/-- The samples `x_1, x_2, ...` of a run: those of worker 0, then those of worker 1,
and so on. -/
def all_samples {α : Type} [LinearOrderedField α] (stream : Nat → Nat → α)
    (N num_threads : Nat) : List α :=
  ((List.range num_threads).map (worker_samples stream N num_threads)).flatten

end TotalWorkTime

/-- The online variance recurrence in the words of the spec (section 4.3): `S` is
seeded with the first observation and `T` with 0; then, for `j = 1 .. N - 1`, the
observation `x j` (the one numbered `j + 1`) adds `(1 - 1/(j+1)) * (x j - S/j)^2`
to `T`, with the `S` from before, and is added to `S`. The result is `(S, T)`. -/
def online_recurrence {α : Type} [LinearOrderedField α] (x : Nat → α) (N : Nat) : α × α :=
  for_loop
    (fun j s => (s.1 + x j, s.2 + (1 - 1 / (((j + 1 : Nat) : α))) * (x j - s.1 / (j : α)) ^ 2))
    1 N (x 0, 0)

/-! ## Double arithmetic with rounding -/

/-- The integer nearest to `n / d`, with a tie going to the even one. -/
def round_half_even (n d : Nat) : Nat :=
  let f := n / d
  let r := n % d
  if 2 * r < d then f else if d < 2 * r then f + 1 else if f % 2 = 0 then f else f + 1

/-- The number of binary digits of `n`, found within `fuel` halvings (`fuel = n`
is always enough). -/
def bit_length : Nat → Nat → Nat
  | 0, _ => 0
  | fuel + 1, n => if n = 0 then 0 else bit_length fuel (n / 2) + 1

/-- The spacing of the binary64 values around `n / d`, as an exponent counted from
that of the smallest positive double: the spacing is `2 ^ (quantum - 1074)`.
A normal value with leading bit `2 ^ e` has 52 further bits, so the spacing is
`2 ^ (e - 52)`; below the normal range it stays `2 ^ (-1074)`. -/
def binary64_quantum (n d : Nat) : Nat :=
  let ln := bit_length n n
  let ld := bit_length d d
  ln + 1022 - (ld + (if (1 <<< ln) * d ≤ (1 <<< ld) * n then 0 else 1))

/-- The number of spacings in the double nearest to `n / d`. -/
def binary64_significand (n d : Nat) : Nat :=
  round_half_even (n * (1 <<< 1074)) (d * (1 <<< binary64_quantum n d))

/-- The rounding that IEEE-754 double arithmetic applies to the exact result `q`
of an operation: the nearest binary64 value, a tie going to the even significand.
Results beyond the largest finite double, which the format turns into an
infinity, are rounded as if the exponent had no upper limit. -/
def binary64_round (q : ℚ) : ℚ :=
  let n := q.num.natAbs
  let d := q.den
  let a : ℚ :=
    ((binary64_significand n d * (1 <<< binary64_quantum n d) : Nat) : ℚ)
      / ((1 <<< 1074 : Nat) : ℚ)
  if q < 0 then -a else a

namespace Integration261

/-- One iteration of the loop of `run_simulation` (lines 57-67) with the rounding
of double arithmetic written out: `rnd` is applied to the result of every
conversion from `size_t` and of every double operation of line 65 and line 66,
`std::pow(x, 2)` being the rounded square. The height function as the
program evaluates it is the argument `K`. With `rnd` the identity this is
`loop_body`. -/
def rounded_loop_body {α : Type} [LinearOrderedField α] (rnd : α → α)
    (toss : sfmt_t → (α × α) × sfmt_t) (K : α × α → α) (j : Nat) (s : LoopState α) :
    LoopState α :=
  let p := toss s.rnd_state
  let k_of_z := K p.1
  ⟨p.2, rnd (s.S + k_of_z),
    rnd (s.T + rnd (rnd (1 - rnd (1 / rnd (((j + 1 : Nat) : α))))
      * rnd ((rnd (k_of_z - rnd (s.S / rnd (j : α)))) ^ 2)))⟩

/-- Lines 43-67 of `run_simulation` with the rounding of double arithmetic written
out; the initial assignments `T = 0.0` and `S = K_fn(point)` do not round. -/
def rounded_accumulate {α : Type} [LinearOrderedField α] (rnd : α → α)
    (toss : sfmt_t → (α × α) × sfmt_t) (K : α × α → α) (N : Nat) : LoopState α :=
  let p := toss (sfmt_init_gen_rand 35141)
  for_loop (rounded_loop_body rnd toss K) 1 N ⟨p.2, K p.1, 0⟩

/-- Line 72 of `run_simulation`, `sigma_sq = T / (N - 1)`, after the rounded loop. -/
def rounded_sigma_sq {α : Type} [LinearOrderedField α] (rnd : α → α)
    (toss : sfmt_t → (α × α) × sfmt_t) (K : α × α → α) (N : Nat) : Option α :=
  (fdiv (rounded_accumulate rnd toss K N).T (rnd ((size_sub N 1 : Nat) : α))).map rnd

end Integration261

namespace VaSimulation411

/-- Lines 146 and 151 of `run_simulation` of va_simulation_411.cpp after the rounded
loop: `T *= (radius * radius * M_PI)`, then `sigma_sq = T / (N - 1)`. The
constant `radius` is the double nearest to 0.4 and `pi` is the double `M_PI`. -/
def rounded_sigma_sq {α : Type} [LinearOrderedField α] (rnd : α → α)
    (toss : sfmt_t → (α × α) × sfmt_t) (K : α × α → α) (pi : α) (N : Nat) : Option α :=
  let T := rnd ((Integration261.rounded_accumulate rnd toss K N).T
    * rnd (rnd (rnd (Integration261.radius α) * rnd (Integration261.radius α)) * pi))
  (fdiv T (rnd ((size_sub N 1 : Nat) : α))).map rnd

end VaSimulation411

/-! ## Inputs of the worked examples -/

/-- A stream for the worked examples: whatever the seed, the points
(1/2, 1/2), (0, 0), (1/2, 1/2), (1/2, 1/2), ... On these points `K_fn` takes the
square root of 0 only, so the examples may pass the identity for `sqrt`. -/
def demo_stream (_seed : Nat) (i : Nat) : ℚ := if i = 2 ∨ i = 3 then 0 else 1 / 2

/-! ## Lemmas on loops and on the online variance recurrence -/

theorem for_loop_empty {β : Type} (body : Nat → β → β) (lo hi : Nat) (init : β)
    (h : hi ≤ lo) : for_loop body lo hi init = init := by
  unfold for_loop
  rw [Nat.sub_eq_zero_of_le h]
  rfl

theorem for_loop_succ {β : Type} (body : Nat → β → β) (lo hi : Nat) (init : β)
    (h : lo ≤ hi) : for_loop body lo (hi + 1) init = body hi (for_loop body lo hi init) := by
  unfold for_loop
  have e : hi + 1 - lo = (hi - lo) + 1 := by omega
  rw [e, List.range'_1_concat, List.foldl_append]
  have e2 : lo + (hi - lo) = hi := by omega
  simp [e2]

section Welford

variable {α : Type} [LinearOrderedField α]

/-- Expansion of a sum of squared deviations from an arbitrary centre. -/
theorem sum_sq_dev (k : Nat → α) (c : α) (n : Nat) :
    ∑ i in Finset.range n, (k i - c) ^ 2
      = ∑ i in Finset.range n, k i ^ 2 - 2 * c * ∑ i in Finset.range n, k i + n * c ^ 2 := by
  induction n with
  | zero => simp
  | succ n ih =>
    rw [Finset.sum_range_succ, Finset.sum_range_succ, Finset.sum_range_succ, ih]
    push_cast
    ring

/-- The recurrence of the online fold: adding the sample `k n` to the first `n ≥ 1`
samples adds `(1 - 1/(n+1)) * (k n - S_n / n)^2` to the sum of squared deviations
from the mean. -/
theorem welford_step (k : Nat → α) (n : Nat) (hn : 1 ≤ n) :
    ∑ i in Finset.range (n + 1),
        (k i - (∑ i in Finset.range (n + 1), k i) / ((n + 1 : Nat) : α)) ^ 2
      = ∑ i in Finset.range n, (k i - (∑ i in Finset.range n, k i) / (n : α)) ^ 2
        + (1 - 1 / (((n + 1 : Nat) : α))) * (k n - (∑ i in Finset.range n, k i) / (n : α)) ^ 2 := by
  have hn0 : (n : α) ≠ 0 := by
    have : (0 : α) < n := by exact_mod_cast hn
    exact ne_of_gt this
  have hn1 : ((n + 1 : Nat) : α) ≠ 0 := by
    have : (0 : α) < ((n + 1 : Nat) : α) := by exact_mod_cast Nat.succ_pos n
    exact ne_of_gt this
  rw [sum_sq_dev k _ (n + 1), sum_sq_dev k _ n]
  rw [Finset.sum_range_succ (fun i => k i ^ 2), Finset.sum_range_succ k]
  generalize (∑ i in Finset.range n, k i) = s
  generalize (∑ i in Finset.range n, k i ^ 2) = q
  push_cast at hn1 ⊢
  field_simp
  ring

end Welford

/-! ## integration_261: the online fold -/

section Fold

open Integration261

variable {α : Type} [LinearOrderedField α]

theorem accumulate_le_one (toss : sfmt_t → (α × α) × sfmt_t) (sqrt : α → α) (N : Nat)
    (h : N ≤ 1) :
    accumulate toss sqrt N
      = ⟨(toss (sfmt_init_gen_rand 35141)).2, K_fn sqrt (toss (sfmt_init_gen_rand 35141)).1, 0⟩ := by
  unfold accumulate
  exact for_loop_empty _ _ _ _ h

theorem accumulate_succ (toss : sfmt_t → (α × α) × sfmt_t) (sqrt : α → α) (n : Nat) :
    accumulate toss sqrt (n + 2) = loop_body toss sqrt (n + 1) (accumulate toss sqrt (n + 1)) := by
  unfold accumulate
  exact for_loop_succ _ 1 (n + 1) _ (by omega)

/-- The loop invariant of `run_simulation`: after the samples numbered `0 .. n`
the generator is in the state reached after `n + 1` tosses, `S` is their sum and
`T` the sum of their squared deviations from their mean. -/
theorem accumulate_invariant (toss : sfmt_t → (α × α) × sfmt_t) (sqrt : α → α) (n : Nat) :
    (accumulate toss sqrt (n + 1)).rnd_state = nth_state toss (n + 1) ∧
    (accumulate toss sqrt (n + 1)).S = ∑ i in Finset.range (n + 1), sample toss sqrt i ∧
    (accumulate toss sqrt (n + 1)).T
      = ∑ i in Finset.range (n + 1),
          (sample toss sqrt i
            - (∑ i in Finset.range (n + 1), sample toss sqrt i) / ((n + 1 : Nat) : α)) ^ 2 := by
  induction n with
  | zero =>
    rw [accumulate_le_one toss sqrt 1 (le_refl 1)]
    simp [nth_state, sample]
  | succ n ih =>
    obtain ⟨h1, h2, h3⟩ := ih
    rw [accumulate_succ]
    refine ⟨?_, ?_, ?_⟩
    · show (toss (accumulate toss sqrt (n + 1)).rnd_state).2 = _
      rw [h1]
      rfl
    · show (accumulate toss sqrt (n + 1)).S
          + K_fn sqrt (toss (accumulate toss sqrt (n + 1)).rnd_state).1 = _
      rw [h1, h2, Finset.sum_range_succ _ (n + 1)]
      rfl
    · show (accumulate toss sqrt (n + 1)).T
          + (1 - 1 / (((n + 1 + 1 : Nat) : α)))
            * (K_fn sqrt (toss (accumulate toss sqrt (n + 1)).rnd_state).1
                - (accumulate toss sqrt (n + 1)).S / ((n + 1 : Nat) : α)) ^ 2 = _
      rw [h1, h2, h3, welford_step (sample toss sqrt) (n + 1) (by omega)]
      rfl

theorem size_sub_one (N : Nat) (h1 : 1 ≤ N) (h2 : N < SIZE_MOD) : size_sub N 1 = N - 1 := by
  unfold size_sub SIZE_MOD at *
  omega

theorem size_sub_zero_one : size_sub 0 1 = SIZE_MOD - 1 := by
  decide

theorem accumulate_T_nonneg (toss : sfmt_t → (α × α) × sfmt_t) (sqrt : α → α) (N : Nat) :
    0 ≤ (accumulate toss sqrt N).T := by
  rcases Nat.lt_or_ge N 1 with h | h
  · rw [accumulate_le_one toss sqrt N (by omega)]
  · obtain ⟨n, rfl⟩ : ∃ n, N = n + 1 := ⟨N - 1, by omega⟩
    rw [(accumulate_invariant toss sqrt n).2.2]
    exact Finset.sum_nonneg (fun i _ => sq_nonneg _)

theorem size_sub_one_ne_zero (N : Nat) (h1 : N ≠ 1) (h2 : N < SIZE_MOD) : size_sub N 1 ≠ 0 := by
  unfold size_sub SIZE_MOD at *
  omega

/-- The pilot run returns a finite, non-negative `sigma_sq` unless `N = 1`. -/
theorem sigma_sq_defined (stream : Nat → Nat → α) (sqrt quantile : α → α) (N : Nat)
    (h1 : N ≠ 1) (h2 : N < SIZE_MOD) :
    ∃ v : α, (run_simulation stream sqrt quantile N).sigma_sq = some v ∧ 0 ≤ v := by
  have hd : ((size_sub N 1 : Nat) : α) ≠ 0 := by
    exact_mod_cast size_sub_one_ne_zero N h1 h2
  refine ⟨(accumulate (draw_point stream) sqrt N).T / ((size_sub N 1 : Nat) : α), ?_, ?_⟩
  · show fdiv _ _ = _
    unfold fdiv
    rw [if_neg hd]
  · exact div_nonneg (accumulate_T_nonneg _ _ _) (Nat.cast_nonneg _)

theorem to_size_t_of_fits (c : ℤ) (h0 : 0 ≤ c) (h1 : c < (SIZE_MOD : ℤ)) :
    ∃ n : Nat, to_size_t c = some n ∧ (n : ℤ) = c := by
  refine ⟨c.toNat, ?_, Int.toNat_of_nonneg h0⟩
  unfold to_size_t
  rw [if_pos ⟨h0, h1⟩]

/-- The sized count is the ceiling of `z^2 * sigma_sq / epsilon^2` whenever that
ceiling is a `size_t` value. -/
theorem sized_count_eq [FloorRing α] (z sigma_sq epsilon : α) (he : epsilon ≠ 0)
    (h0 : 0 ≤ sigma_sq) (hfit : ⌈z ^ 2 * sigma_sq / epsilon ^ 2⌉ < (SIZE_MOD : ℤ)) :
    ∃ n : Nat, sized_count z sigma_sq epsilon = some n ∧
      (n : ℤ) = ⌈z ^ 2 * sigma_sq / epsilon ^ 2⌉ := by
  have hq : 0 ≤ z ^ 2 * sigma_sq / epsilon ^ 2 :=
    div_nonneg (mul_nonneg (sq_nonneg z) h0) (sq_nonneg epsilon)
  obtain ⟨n, hn, hc⟩ := to_size_t_of_fits _ (Int.ceil_nonneg hq) hfit
  refine ⟨n, ?_, hc⟩
  unfold sized_count fdiv
  rw [if_neg (pow_ne_zero 2 he)]
  exact hn

theorem EPSILON_ne_zero : EPSILON α ≠ 0 := by
  unfold EPSILON
  norm_num

theorem demo_samples :
    sample (draw_point demo_stream) id 0 = 8 ∧
    sample (draw_point demo_stream) id 1 = 0 ∧
    sample (draw_point demo_stream) id 2 = 8 := by
  refine ⟨?_, ?_, ?_⟩ <;>
    norm_num [sample, nth_state, draw_point, sfmt_genrand_real1, sfmt_init_gen_rand,
      demo_stream, K_fn, center, sqradius, radius, height]

/-- On the example stream a run of three samples returns `sigma_sq = 64/3`. -/
theorem demo_sigma_sq (quantile : ℚ → ℚ) :
    (run_simulation demo_stream id quantile 3).sigma_sq = some (64 / 3) := by
  obtain ⟨k0, k1, k2⟩ := demo_samples
  show fdiv (accumulate (draw_point demo_stream) id 3).T ((size_sub 3 1 : Nat) : ℚ) = _
  rw [(accumulate_invariant (draw_point demo_stream) id 2).2.2,
    size_sub_one 3 (by decide) (by decide)]
  simp only [Finset.sum_range_succ, Finset.sum_range_zero, k0, k1, k2]
  unfold fdiv
  norm_num

/-- The half-width on `m ≥ 1` samples is finite and non-negative, and its square
is `z^2 * sigma_sq / m`, for any function `sqrt` that is a square root on the
non-negative numbers. -/
theorem half_width_spec (sqrt : α → α)
    (hsqrt : ∀ x : α, 0 ≤ x → 0 ≤ sqrt x ∧ sqrt x * sqrt x = x)
    (z sigma_sq : α) (hz : 0 ≤ z) (hs : 0 ≤ sigma_sq) (m : Nat) (hm : 0 < m) :
    ∃ e : α, half_width sqrt z sigma_sq m = some e ∧ 0 ≤ e ∧ e ^ 2 = z ^ 2 * sigma_sq / (m : α) := by
  have hm0 : (0 : α) < m := by exact_mod_cast hm
  have hq : 0 ≤ sigma_sq / (m : α) := div_nonneg hs (le_of_lt hm0)
  obtain ⟨hr0, hr⟩ := hsqrt _ hq
  refine ⟨z * sqrt (sigma_sq / (m : α)), ?_, mul_nonneg hz hr0, ?_⟩
  · unfold half_width fdiv
    rw [if_neg (ne_of_gt hm0)]
    rfl
  · calc (z * sqrt (sigma_sq / (m : α))) ^ 2
        = z ^ 2 * (sqrt (sigma_sq / (m : α)) * sqrt (sigma_sq / (m : α))) := by ring
      _ = z ^ 2 * (sigma_sq / (m : α)) := by rw [hr]
      _ = z ^ 2 * sigma_sq / (m : α) := by ring

/-- The real square root is a square root on the non-negative reals. -/
theorem real_sqrt_spec : ∀ x : ℝ, 0 ≤ x → 0 ≤ Real.sqrt x ∧ Real.sqrt x * Real.sqrt x = x :=
  fun x hx => ⟨Real.sqrt_nonneg x, Real.mul_self_sqrt hx⟩

theorem nth_state_draw_point {β : Type} (stream : Nat → Nat → β) (i : Nat) :
    nth_state (draw_point stream) i = ⟨35141, 2 * i⟩ := by
  induction i with
  | zero => rfl
  | succ i ih =>
    show (draw_point stream (nth_state (draw_point stream) i)).2 = _
    rw [ih]
    rfl

/-- Every call of `run_simulation` draws the stream seeded with 35141 from its
start: two values for each of `max N 1` points. -/
theorem run_draws_eq (stream : Nat → Nat → α) (sqrt : α → α) (N : Nat) :
    run_draws stream sqrt N = (List.range (2 * max N 1)).map (fun i => (35141, i)) := by
  have hst : (accumulate (draw_point stream) sqrt N).rnd_state = ⟨35141, 2 * max N 1⟩ := by
    rcases Nat.lt_or_ge N 1 with h | h
    · rw [accumulate_le_one _ sqrt N (by omega)]
      have : max N 1 = 1 := by omega
      rw [this]
      rfl
    · obtain ⟨n, rfl⟩ : ∃ n, N = n + 1 := ⟨N - 1, by omega⟩
      rw [(accumulate_invariant (draw_point stream) sqrt n).1, nth_state_draw_point]
      have : max (n + 1) 1 = n + 1 := by omega
      rw [this]
  unfold run_draws drawn_between
  rw [hst]
  simp [sfmt_init_gen_rand, List.range_eq_range']

theorem mem_run_draws (stream : Nat → Nat → α) (sqrt : α → α) (N : Nat) (d : Nat × Nat) :
    d ∈ run_draws stream sqrt N ↔ d.1 = 35141 ∧ d.2 < 2 * max N 1 := by
  rw [run_draws_eq]
  constructor
  · intro h
    obtain ⟨i, hi, rfl⟩ := List.mem_map.mp h
    exact ⟨rfl, List.mem_range.mp hi⟩
  · rintro ⟨h1, h2⟩
    exact List.mem_map.mpr ⟨d.2, List.mem_range.mpr h2, by rw [← h1]⟩

/-- On the example stream, with the quantile 1.95996, `main` sizes the second run
at 81950789 samples after a pilot run of three. -/
theorem demo_main_nN :
    main_nN demo_stream id (fun _ => (195996 / 100000 : ℚ)) 3 = some 81950789 := by
  have hc : ⌈((195996 / 100000 : ℚ)) ^ 2 * (64 / 3) / (EPSILON ℚ) ^ 2⌉ = 81950789 := by
    rw [Int.ceil_eq_iff]
    unfold EPSILON
    norm_num
  obtain ⟨n, hn, hnc⟩ := sized_count_eq (195996 / 100000 : ℚ) (64 / 3) (EPSILON ℚ)
    EPSILON_ne_zero (by norm_num) (by rw [hc]; decide)
  rw [hc] at hnc
  unfold main_nN
  rw [demo_sigma_sq]
  show sized_count _ _ _ = _
  rw [hn]
  congr 1
  exact_mod_cast hnc

end Fold

/-! ## Claims on the integration drivers -/

section IntegrationClaims

open Integration261

variable {α : Type} [LinearOrderedField α]

/-- C1: for every way of tossing points (that of integration_261 and that of
va_simulation_411), every `N ≥ 1` and the sample values `k_0 .. k_(N-1)` the run
sees, the online fold of `run_simulation` ends with `S` the sum of the samples and
`T` the sum of their squared deviations from the mean `S / N`; and for `N ≥ 2` the
value `sigma_sq` that `run_simulation` of integration_261 returns is `T / (N - 1)`,
the unbiased sample variance. -/
theorem C1_online_fold_is_welford (toss : sfmt_t → (α × α) × sfmt_t)
    (stream : Nat → Nat → α) (sqrt quantile : α → α) (N : Nat)
    (hN : 1 ≤ N) (hsz : N < SIZE_MOD) :
    (accumulate toss sqrt N).S = ∑ i in Finset.range N, sample toss sqrt i ∧
    (accumulate toss sqrt N).T
      = ∑ i in Finset.range N,
          (sample toss sqrt i - (∑ i in Finset.range N, sample toss sqrt i) / (N : α)) ^ 2 ∧
    (2 ≤ N → (run_simulation stream sqrt quantile N).sigma_sq
      = some ((∑ i in Finset.range N,
          (sample (draw_point stream) sqrt i
            - (∑ i in Finset.range N, sample (draw_point stream) sqrt i) / (N : α)) ^ 2)
          / ((N : α) - 1))) := by
  obtain ⟨n, rfl⟩ : ∃ n, N = n + 1 := ⟨N - 1, by omega⟩
  refine ⟨(accumulate_invariant toss sqrt n).2.1, (accumulate_invariant toss sqrt n).2.2, ?_⟩
  intro h2
  have hsub : size_sub (n + 1) 1 = n := by
    rw [size_sub_one (n + 1) hN hsz]
    rfl
  have hn : (n : α) ≠ 0 := by
    have : (0 : α) < n := by exact_mod_cast (by omega : 0 < n)
    exact ne_of_gt this
  show fdiv (accumulate (draw_point stream) sqrt (n + 1)).T ((size_sub (n + 1) 1 : Nat) : α) = _
  rw [hsub, (accumulate_invariant (draw_point stream) sqrt n).2.2]
  have hc : ((n + 1 : Nat) : α) - 1 = (n : α) := by
    push_cast
    ring
  rw [hc]
  unfold fdiv
  rw [if_neg hn]

/-- Witness of C1: three samples 8, 0, 8 give `S = 16`, `T = 128/3` and `sigma_sq = 64/3`. -/
theorem C1_online_fold_is_welford_witness :
    1 ≤ 3 ∧ 3 < SIZE_MOD ∧
    (accumulate (draw_point demo_stream) id 3).S = 16 ∧
    (accumulate (draw_point demo_stream) id 3).T = 128 / 3 ∧
    (run_simulation demo_stream id id 3).sigma_sq = some (64 / 3) := by
  have h := C1_online_fold_is_welford (draw_point demo_stream) demo_stream id id 3
    (by decide) (by decide)
  obtain ⟨k0, k1, k2⟩ := demo_samples
  refine ⟨by decide, by decide, ?_, ?_, ?_⟩
  · rw [h.1]
    simp only [Finset.sum_range_succ, Finset.sum_range_zero, k0, k1, k2]
    norm_num
  · rw [h.2.1]
    simp only [Finset.sum_range_succ, Finset.sum_range_zero, k0, k1, k2]
    norm_num
  · rw [h.2.2 (by decide)]
    simp only [Finset.sum_range_succ, Finset.sum_range_zero, k0, k1, k2]
    norm_num

/-- C2: when the pilot run returns the variance estimate `sigma_sq` (it does
unless `N = 1`), the count `nN` that `main` computes for the second run is the
ceiling of `z^2 * sigma_sq / epsilon^2`, with `z` the quantile at `1 - DELTA/2` and
`epsilon = EPSILON`, provided that ceiling is a `size_t` value; and for
`sigma_sq = 0.04`, `z = 1.95996`, `epsilon = 0.01` the formula gives 1537. -/
theorem C2_sized_sample_count [FloorRing α] (stream : Nat → Nat → α) (sqrt quantile : α → α)
    (N : Nat) (h1 : N ≠ 1) (h2 : N < SIZE_MOD) :
    (∃ sigma_sq : α, (run_simulation stream sqrt quantile N).sigma_sq = some sigma_sq ∧
      (⌈(quantile (1 - DELTA α / 2)) ^ 2 * sigma_sq / (EPSILON α) ^ 2⌉ < (SIZE_MOD : ℤ) →
        ∃ nN : Nat, main_nN stream sqrt quantile N = some nN ∧
          (nN : ℤ) = ⌈(quantile (1 - DELTA α / 2)) ^ 2 * sigma_sq / (EPSILON α) ^ 2⌉)) ∧
    sized_count (195996 / 100000 : ℚ) (4 / 100) (1 / 100) = some 1537 := by
  constructor
  · obtain ⟨v, hv, hv0⟩ := sigma_sq_defined stream sqrt quantile N h1 h2
    refine ⟨v, hv, fun hfit => ?_⟩
    obtain ⟨n, hn, hc⟩ := sized_count_eq (quantile (1 - DELTA α / 2)) v (EPSILON α)
      EPSILON_ne_zero hv0 hfit
    refine ⟨n, ?_, hc⟩
    unfold main_nN
    rw [hv]
    exact hn
  · have hc : ⌈((195996 / 100000 : ℚ)) ^ 2 * (4 / 100) / (1 / 100) ^ 2⌉ = 1537 := by
      rw [Int.ceil_eq_iff]
      norm_num
    obtain ⟨n, hn, hnc⟩ := sized_count_eq (195996 / 100000 : ℚ) (4 / 100) (1 / 100)
      (by norm_num) (by norm_num) (by rw [hc]; decide)
    rw [hc] at hnc
    rw [hn]
    congr 1
    exact_mod_cast hnc

/-- Witness of C2: on the example stream, with the quantile 1.95996, the pilot run
of three samples returns `sigma_sq = 64/3` and `main` computes `nN = 81950789`. -/
theorem C2_sized_sample_count_witness :
    3 ≠ 1 ∧ 3 < SIZE_MOD ∧
    main_nN demo_stream id (fun _ => (195996 / 100000 : ℚ)) 3 = some 81950789 := by
  obtain ⟨⟨v, hv, hmain⟩, _⟩ := C2_sized_sample_count demo_stream id
    (fun _ => (195996 / 100000 : ℚ)) 3 (by decide) (by decide)
  rw [demo_sigma_sq] at hv
  obtain rfl : (64 / 3 : ℚ) = v := Option.some.inj hv
  have hc : ⌈((195996 / 100000 : ℚ)) ^ 2 * (64 / 3) / (EPSILON ℚ) ^ 2⌉ = 81950789 := by
    rw [Int.ceil_eq_iff]
    unfold EPSILON
    norm_num
  obtain ⟨n, hn, hnc⟩ := hmain (by rw [hc]; decide)
  rw [hc] at hnc
  refine ⟨by decide, by decide, ?_⟩
  rw [hn]
  congr 1
  exact_mod_cast hnc

/-- C3: for every `sigma_sq > 0`, `epsilon > 0` and `z > 0` the ceiling `n` of
`z^2 * sigma_sq / epsilon^2` is positive and is what line 110 of `main` computes
(when it is a `size_t` value); the half-width `z * sqrt(sigma_sq / n)` of
`run_simulation` at that `n` is at most `epsilon`, and `n` is the least positive
sample count with that property. -/
theorem C3_sized_count_meets_target [FloorRing α] (sqrt : α → α)
    (hsqrt : ∀ x : α, 0 ≤ x → 0 ≤ sqrt x ∧ sqrt x * sqrt x = x)
    (z sigma_sq epsilon : α) (hz : 0 < z) (hs : 0 < sigma_sq) (he : 0 < epsilon) :
    ∃ n : Nat, (n : ℤ) = ⌈z ^ 2 * sigma_sq / epsilon ^ 2⌉ ∧ 0 < n ∧
      (n < SIZE_MOD → sized_count z sigma_sq epsilon = some n) ∧
      (∃ e : α, half_width sqrt z sigma_sq n = some e ∧ e ≤ epsilon) ∧
      (∀ m : Nat, 0 < m → ∀ e : α, half_width sqrt z sigma_sq m = some e → e ≤ epsilon →
        n ≤ m) := by
  have he2 : 0 < epsilon ^ 2 := pow_pos he 2
  have hx : 0 < z ^ 2 * sigma_sq / epsilon ^ 2 := div_pos (mul_pos (pow_pos hz 2) hs) he2
  have hc : 0 < ⌈z ^ 2 * sigma_sq / epsilon ^ 2⌉ := Int.ceil_pos.mpr hx
  have hn : ((⌈z ^ 2 * sigma_sq / epsilon ^ 2⌉.toNat : Nat) : ℤ) = ⌈z ^ 2 * sigma_sq / epsilon ^ 2⌉ :=
    Int.toNat_of_nonneg (le_of_lt hc)
  have hnpos : 0 < ⌈z ^ 2 * sigma_sq / epsilon ^ 2⌉.toNat := by
    have : (0 : ℤ) < (⌈z ^ 2 * sigma_sq / epsilon ^ 2⌉.toNat : Nat) := by rw [hn]; exact hc
    exact_mod_cast this
  have hxn : z ^ 2 * sigma_sq / epsilon ^ 2 ≤ ((⌈z ^ 2 * sigma_sq / epsilon ^ 2⌉.toNat : Nat) : α) := by
    have h1 : z ^ 2 * sigma_sq / epsilon ^ 2 ≤ ((⌈z ^ 2 * sigma_sq / epsilon ^ 2⌉ : ℤ) : α) :=
      Int.le_ceil _
    have h2 : (((⌈z ^ 2 * sigma_sq / epsilon ^ 2⌉.toNat : Nat) : ℤ) : α)
        = ((⌈z ^ 2 * sigma_sq / epsilon ^ 2⌉.toNat : Nat) : α) := Int.cast_natCast _
    rw [← h2, hn]
    exact h1
  refine ⟨⌈z ^ 2 * sigma_sq / epsilon ^ 2⌉.toNat, hn, hnpos, ?_, ?_, ?_⟩
  · intro hfit
    obtain ⟨n, hsc, hnc⟩ := sized_count_eq z sigma_sq epsilon (ne_of_gt he) (le_of_lt hs)
      (by rw [← hn]; exact_mod_cast hfit)
    rw [hsc]
    congr 1
    have : (n : ℤ) = (⌈z ^ 2 * sigma_sq / epsilon ^ 2⌉.toNat : Nat) := by rw [hn]; exact hnc
    exact_mod_cast this
  · obtain ⟨e, hw, he0, hesq⟩ := half_width_spec sqrt hsqrt z sigma_sq (le_of_lt hz)
      (le_of_lt hs) _ hnpos
    refine ⟨e, hw, ?_⟩
    have hnα : (0 : α) < ((⌈z ^ 2 * sigma_sq / epsilon ^ 2⌉.toNat : Nat) : α) := by
      exact_mod_cast hnpos
    have hle : e ^ 2 ≤ epsilon ^ 2 := by
      rw [hesq, div_le_iff₀ hnα]
      rw [div_le_iff₀ he2] at hxn
      linarith
    exact (pow_le_pow_iff_left₀ he0 (le_of_lt he) (by norm_num)).mp hle
  · intro m hm e hw hle
    obtain ⟨e2, hw2, he0, hesq⟩ := half_width_spec sqrt hsqrt z sigma_sq (le_of_lt hz)
      (le_of_lt hs) m hm
    rw [hw] at hw2
    obtain rfl : e = e2 := Option.some.inj hw2
    have hmα : (0 : α) < (m : α) := by exact_mod_cast hm
    have hsq : e ^ 2 ≤ epsilon ^ 2 := pow_le_pow_left₀ he0 hle 2
    rw [hesq, div_le_iff₀ hmα] at hsq
    have hxm : z ^ 2 * sigma_sq / epsilon ^ 2 ≤ ((m : ℤ) : α) := by
      rw [div_le_iff₀ he2]
      push_cast
      linarith
    have : ⌈z ^ 2 * sigma_sq / epsilon ^ 2⌉ ≤ (m : ℤ) := Int.ceil_le.mpr hxm
    rw [← hn] at this
    exact_mod_cast this

/-- Witness of C3: over the reals with `z = 2`, `sigma_sq = 1`, `epsilon = 3` the
sized count is 1 and the half-width on one sample is at most 3. -/
theorem C3_sized_count_meets_target_witness :
    (0 : ℝ) < 2 ∧ (0 : ℝ) < 1 ∧ (0 : ℝ) < 3 ∧
    (∀ x : ℝ, 0 ≤ x → 0 ≤ Real.sqrt x ∧ Real.sqrt x * Real.sqrt x = x) ∧
    sized_count (2 : ℝ) 1 3 = some 1 ∧
    ∃ e : ℝ, half_width Real.sqrt 2 1 1 = some e ∧ e ≤ 3 := by
  obtain ⟨n, hn, _, hsc, hw, _⟩ := C3_sized_count_meets_target Real.sqrt real_sqrt_spec
    (2 : ℝ) 1 3 (by norm_num) (by norm_num) (by norm_num)
  have hc : ⌈(2 : ℝ) ^ 2 * 1 / 3 ^ 2⌉ = 1 := by
    rw [Int.ceil_eq_iff]
    norm_num
  rw [hc] at hn
  obtain rfl : n = 1 := by exact_mod_cast hn
  exact ⟨by norm_num, by norm_num, by norm_num, real_sqrt_spec, hsc (by decide), hw⟩

/-- C4, as stated, fails: after a pilot run of three samples `main` runs the second
simulation on 81950789 samples, and both runs draw position 0 of the stream seeded
with 35141. -/
theorem C4_fresh_samples_counterexample :
    main_nN demo_stream id (fun _ => (195996 / 100000 : ℚ)) 3 = some 81950789 ∧
    (35141, 0) ∈ run_draws demo_stream id 3 ∧
    (35141, 0) ∈ run_draws demo_stream id 81950789 :=
  ⟨demo_main_nN, (mem_run_draws _ _ _ _).mpr ⟨rfl, by decide⟩,
    (mem_run_draws _ _ _ _).mpr ⟨rfl, by decide⟩⟩

/-- C4, amended: both runs of `main` seed the generator with the same constant
35141, so a run on `n` samples draws exactly the first `2 * max n 1` values of that
one stream; hence the second run draws again every value the pilot run drew when
`N ≤ nN`, and draws nothing the pilot did not draw when `nN ≤ N`. -/
theorem C4_second_run_redraws [FloorRing α] (stream : Nat → Nat → α) (sqrt quantile : α → α)
    (N nN : Nat) (h : main_nN stream sqrt quantile N = some nN) :
    run_draws stream sqrt N = (List.range (2 * max N 1)).map (fun i => (35141, i)) ∧
    run_draws stream sqrt nN = (List.range (2 * max nN 1)).map (fun i => (35141, i)) ∧
    (N ≤ nN → ∀ d ∈ run_draws stream sqrt N, d ∈ run_draws stream sqrt nN) ∧
    (nN ≤ N → ∀ d ∈ run_draws stream sqrt nN, d ∈ run_draws stream sqrt N) := by
  have _hmain := h
  refine ⟨run_draws_eq _ _ _, run_draws_eq _ _ _, ?_, ?_⟩
  · intro hle d hd
    rw [mem_run_draws] at hd ⊢
    exact ⟨hd.1, lt_of_lt_of_le hd.2 (by omega)⟩
  · intro hle d hd
    rw [mem_run_draws] at hd ⊢
    exact ⟨hd.1, lt_of_lt_of_le hd.2 (by omega)⟩

/-- Witness of C4 (amended): the pilot run of three samples on the example stream
and the second run on 81950789 samples. -/
theorem C4_second_run_redraws_witness :
    main_nN demo_stream id (fun _ => (195996 / 100000 : ℚ)) 3 = some 81950789 ∧
    run_draws demo_stream id 3 = (List.range 6).map (fun i => (35141, i)) ∧
    ∀ d ∈ run_draws demo_stream id 3, d ∈ run_draws demo_stream id 81950789 :=
  ⟨demo_main_nN,
    (C4_second_run_redraws demo_stream id (fun _ => (195996 / 100000 : ℚ)) 3 81950789
      demo_main_nN).1,
    (C4_second_run_redraws demo_stream id (fun _ => (195996 / 100000 : ℚ)) 3 81950789
      demo_main_nN).2.2.1 (by decide)⟩

end IntegrationClaims

/-! ## counting_371: the estimates -/

section Counting

open Counting371

variable {α : Type} [LinearOrderedField α]

theorem count_successes_le {σ Sol : Type} (solution_maker : σ → Sol × σ)
    (subsets : List (Sol → Bool)) (N : Nat) (st : σ) :
    (count_successes solution_maker subsets N st).1 ≤ N := by
  unfold count_successes
  induction N with
  | zero => rw [for_loop_empty _ _ _ _ (le_refl 0)]
  | succ n ih =>
    rw [for_loop_succ _ 0 n _ (Nat.zero_le n)]
    generalize for_loop _ 0 n (0, st) = s at ih ⊢
    show (if subsets.all (fun f => f (solution_maker s.2).1) then s.1 + 1 else s.1) ≤ n + 1
    by_cases h : subsets.all (fun f => f (solution_maker s.2).1) = true
    · rw [if_pos h]
      omega
    · rw [if_neg h]
      omega

/-- For `2 ≤ N < 2^64` both integer divisions of `montecarlo_couting` are defined,
and the tuple it returns is the following. -/
theorem estimates_some (sqrt quantile : α → α) (r N S : Nat) (delta : α)
    (hN : 2 ≤ N) (hsz : N < SIZE_MOD) :
    estimates sqrt quantile r N S delta
      = some ⟨size_mul r S / N,
          size_mul (size_mul r S / N) (size_sub r (size_mul r S / N)) / (N - 1),
          sqrt ((size_mul (size_mul r S / N) (size_sub r (size_mul r S / N)) / (N - 1) : Nat) : α),
          (fdiv ((size_add S 2 : Nat) : α) ((size_add N 4 : Nat) : α)).bind (fun (p : α) =>
            (fdiv 1 (sqrt ((size_add N 4 : Nat) : α))).map (fun (inv : α) =>
              (r : α) * quantile (1 - delta / 2) * inv * sqrt (p * (1 - p)))),
          quantile (1 - delta / 2)
            * sqrt ((size_mul (size_mul r S / N) (size_sub r (size_mul r S / N)) / (N - 1) : Nat) : α)⟩ := by
  have h1 : size_sub N 1 = N - 1 := size_sub_one N (by omega) hsz
  unfold estimates size_div
  rw [h1, if_neg (by omega : ¬ N = 0)]
  simp only [Option.some_bind]
  rw [if_neg (by omega : ¬ N - 1 = 0)]
  rfl

theorem estimates_zero (sqrt quantile : α → α) (r S : Nat) (delta : α) :
    estimates sqrt quantile r 0 S delta = none := by
  unfold estimates size_div
  rw [if_pos rfl]
  rfl

theorem estimates_one (sqrt quantile : α → α) (r S : Nat) (delta : α) :
    estimates sqrt quantile r 1 S delta = none := by
  have h1 : size_sub 1 1 = 0 := by decide
  unfold estimates size_div
  rw [h1, if_neg (by omega : ¬ 1 = 0)]
  simp

theorem real_sqrt_four : Real.sqrt 4 = 2 := by
  rw [show (4 : ℝ) = 2 * 2 by norm_num]
  exact Real.sqrt_mul_self (by norm_num)

/-- C5, as stated, fails: with `r = 4`, `N = 2`, `S = 1` and the quantile 1.95996
the returned `errorN` is `1.95996 * sqrt(VCn)`, not `r` times that. -/
theorem C5_wald_half_width_counterexample :
    ∃ e : Estimates ℝ,
      estimates Real.sqrt (fun _ => (195996 / 100000 : ℝ)) 4 2 1 (1 / 20) = some e ∧
      e.VCn = 4 ∧
      e.errorN ≠ (4 : ℝ) * (195996 / 100000) * Real.sqrt (e.VCn : ℝ) := by
  have hv : size_mul (size_mul 4 1 / 2) (size_sub 4 (size_mul 4 1 / 2)) / (2 - 1) = 4 := by
    decide
  refine ⟨_, estimates_some Real.sqrt _ 4 2 1 (1 / 20) (by decide) (by decide), hv, ?_⟩
  show (195996 / 100000 : ℝ) * Real.sqrt ((_ : Nat) : ℝ) ≠ _
  rw [hv]
  push_cast
  rw [real_sqrt_four]
  norm_num

/-- C5, amended: for every `N` with `2 ≤ N < 2^64`, every success count `S`, space
size `r` and `delta`, `montecarlo_couting` returns a tuple whose normal half-width
`errorN` is `z * sqrt(VCn)`, with `z` the quantile at `1 - delta/2` and `VCn` the
returned variance estimate: there is no factor `r`. -/
theorem C5_wald_half_width (sqrt quantile : α → α) (r N : Nat) (delta : α)
    (hN : 2 ≤ N) (hsz : N < SIZE_MOD) :
    (∀ S : Nat, ∃ e : Estimates α, estimates sqrt quantile r N S delta = some e ∧
      e.errorN = quantile (1 - delta / 2) * sqrt (e.VCn : α)) ∧
    (∀ (σ Sol : Type) (solution_maker : σ → Sol × σ) (subsets : List (Sol → Bool)) (st : σ),
      ∃ e : Estimates α,
        montecarlo_couting sqrt quantile r N solution_maker subsets delta st = some e ∧
        e.errorN = quantile (1 - delta / 2) * sqrt (e.VCn : α)) := by
  have h : ∀ S : Nat, ∃ e : Estimates α, estimates sqrt quantile r N S delta = some e ∧
      e.errorN = quantile (1 - delta / 2) * sqrt (e.VCn : α) :=
    fun S => ⟨_, estimates_some sqrt quantile r N S delta hN hsz, rfl⟩
  exact ⟨h, fun σ Sol solution_maker subsets st => h _⟩

/-- Witness of C5 (amended): `r = 4`, `N = 2`, `S = 1` over the reals. -/
theorem C5_wald_half_width_witness :
    2 ≤ 2 ∧ 2 < SIZE_MOD ∧
    ∃ e : Estimates ℝ,
      estimates Real.sqrt (fun _ => (195996 / 100000 : ℝ)) 4 2 1 (1 / 20) = some e ∧
      e.errorN = (195996 / 100000 : ℝ) * Real.sqrt (e.VCn : ℝ) :=
  ⟨by decide, by decide,
    (C5_wald_half_width Real.sqrt (fun _ => (195996 / 100000 : ℝ)) 4 2 (1 / 20)
      (by decide) (by decide)).1 1⟩

theorem size_mul_of_lt (a b : Nat) (h : a * b < SIZE_MOD) : size_mul a b = a * b := by
  unfold size_mul
  exact Nat.mod_eq_of_lt h

/-- The integer quotient `a / b` is the floor of the exact quotient. -/
theorem nat_div_floor (a b : Nat) (hb : 0 < b) :
    ((a / b : Nat) : α) ≤ (a : α) / (b : α) ∧ (a : α) / (b : α) < ((a / b : Nat) : α) + 1 := by
  have hbα : (0 : α) < (b : α) := by exact_mod_cast hb
  have hdm : (a : α) = (b : α) * ((a / b : Nat) : α) + ((a % b : Nat) : α) := by
    exact_mod_cast (Nat.div_add_mod a b).symm
  have hm : ((a % b : Nat) : α) < (b : α) := by exact_mod_cast Nat.mod_lt a hb
  have hm0 : (0 : α) ≤ ((a % b : Nat) : α) := Nat.cast_nonneg _
  constructor
  · rw [le_div_iff₀ hbα]
    nlinarith
  · rw [div_lt_iff₀ hbα]
    nlinarith

/-- C7, as stated, fails: with `r = 4^10`, `N = 3`, `S = 1` the returned `Cn` is the
integer 349525, not 1048576/3. -/
theorem C7_point_estimate_counterexample :
    ∃ e : Estimates ℝ,
      estimates Real.sqrt (fun _ => (195996 / 100000 : ℝ)) (power 4 10) 3 1 (1 / 20) = some e ∧
      e.Cn = 349525 ∧ (e.Cn : ℝ) ≠ 1048576 / 3 := by
  have hc : size_mul (power 4 10) 1 / 3 = 349525 := by decide
  refine ⟨_, estimates_some Real.sqrt _ (power 4 10) 3 1 (1 / 20) (by decide) (by decide),
    hc, ?_⟩
  show ((size_mul (power 4 10) 1 / 3 : Nat) : ℝ) ≠ 1048576 / 3
  rw [hc]
  norm_num

/-- C7, amended: for every `N` with `2 ≤ N < 2^64`, every success count `S` and space
size `r` with `r * S < 2^64`, the point estimate `Cn` that `montecarlo_couting`
returns is the integer quotient of `r * S` by `N`, that is the floor of the real
number `r * S / N`; it equals `r * S / N` exactly when `N` divides `r * S`. -/
theorem C7_point_estimate (sqrt quantile : α → α) (r N S : Nat) (delta : α)
    (hN : 2 ≤ N) (hsz : N < SIZE_MOD) (hrS : r * S < SIZE_MOD) :
    ∃ e : Estimates α, estimates sqrt quantile r N S delta = some e ∧
      e.Cn = r * S / N ∧
      (e.Cn : α) ≤ (r : α) * (S : α) / (N : α) ∧
      (r : α) * (S : α) / (N : α) < (e.Cn : α) + 1 ∧
      (N ∣ r * S → (e.Cn : α) = (r : α) * (S : α) / (N : α)) := by
  have hc : size_mul r S / N = r * S / N := by rw [size_mul_of_lt r S hrS]
  have hfl : ((r * S / N : Nat) : α) ≤ ((r * S : Nat) : α) / (N : α) ∧
      ((r * S : Nat) : α) / (N : α) < ((r * S / N : Nat) : α) + 1 :=
    nat_div_floor (r * S) N (by omega : 0 < N)
  have hNα : (N : α) ≠ 0 := by
    have : (0 : α) < (N : α) := by exact_mod_cast (by omega : 0 < N)
    exact ne_of_gt this
  rw [Nat.cast_mul] at hfl
  refine ⟨_, estimates_some sqrt quantile r N S delta hN hsz, hc, ?_, ?_, ?_⟩
  · show ((size_mul r S / N : Nat) : α) ≤ _
    rw [hc]
    exact hfl.1
  · show _ < ((size_mul r S / N : Nat) : α) + 1
    rw [hc]
    exact hfl.2
  · intro hdvd
    show ((size_mul r S / N : Nat) : α) = _
    rw [hc, Nat.cast_div hdvd hNα, Nat.cast_mul]

/-- Witness of C7 (amended): `r = 4^10`, `N = 3`, `S = 1` gives `Cn = 349525`. -/
theorem C7_point_estimate_witness :
    2 ≤ 3 ∧ 3 < SIZE_MOD ∧ power 4 10 * 1 < SIZE_MOD ∧
    ∃ e : Estimates ℝ,
      estimates Real.sqrt (fun _ => (195996 / 100000 : ℝ)) (power 4 10) 3 1 (1 / 20) = some e ∧
      e.Cn = 349525 := by
  obtain ⟨e, he, hc, _⟩ := C7_point_estimate Real.sqrt (fun _ => (195996 / 100000 : ℝ))
    (power 4 10) 3 1 (1 / 20) (by decide) (by decide) (by decide)
  refine ⟨by decide, by decide, by decide, e, he, ?_⟩
  rw [hc]
  decide

end Counting

/-! ## Sample counts below two -/

section SmallCounts

open Integration261 Counting371

variable {α : Type} [LinearOrderedField α]

theorem fdiv_zero_right (x : α) : fdiv x 0 = none := by
  unfold fdiv
  rw [if_pos rfl]

/-- The call `run_simulation(0)` of integration_261 returns the variance 0: the
loop does not run, `T` stays 0 and the unsigned `N - 1` is `2^64 - 1`. -/
theorem run_simulation_zero (stream : Nat → Nat → α) (sqrt quantile : α → α) :
    (Integration261.run_simulation stream sqrt quantile 0).sigma_sq = some 0 := by
  have hd : ((size_sub 0 1 : Nat) : α) ≠ 0 := by
    exact_mod_cast size_sub_one_ne_zero 0 (by decide) (by decide)
  show fdiv (accumulate (draw_point stream) sqrt 0).T ((size_sub 0 1 : Nat) : α) = _
  rw [accumulate_le_one _ sqrt 0 (by decide)]
  unfold fdiv
  rw [if_neg hd, zero_div]

/-- The call `run_simulation(1)` of integration_261 divides 0 by 0. -/
theorem run_simulation_one (stream : Nat → Nat → α) (sqrt quantile : α → α) :
    (Integration261.run_simulation stream sqrt quantile 1).sigma_sq = none := by
  have h1 : size_sub 1 1 = 0 := by decide
  show fdiv (accumulate (draw_point stream) sqrt 1).T ((size_sub 1 1 : Nat) : α) = _
  rw [h1, Nat.cast_zero]
  exact fdiv_zero_right _

/-- In integration_231 the variance is not finite for `N = 0` and `N = 1`. -/
theorem run_simulation_231_small (stream : Nat → Nat → α) (sqrt : α → α)
    (num_threads : Nat) (extra_restrictions : Bool) :
    (Integration231.run_simulation stream sqrt 0 num_threads extra_restrictions).variance = none ∧
    (Integration231.run_simulation stream sqrt 1 num_threads extra_restrictions).variance = none := by
  constructor
  · show (fdiv _ ((0 : Nat) : α)).bind _ = none
    rw [Nat.cast_zero, fdiv_zero_right]
    rfl
  · have h1 : size_sub 1 1 = 0 := by decide
    show (fdiv _ ((1 : Nat) : α)).bind
      (fun l => fdiv (l * (1 - l)) ((size_sub 1 1 : Nat) : α)) = none
    rw [h1, Nat.cast_zero]
    cases fdiv _ ((1 : Nat) : α) with
    | none => rfl
    | some l => exact fdiv_zero_right _

/-- C8, as stated, fails: on the example stream `run_simulation(0)` of
integration_261 raises no error and returns the variance estimate 0. -/
theorem C8_domain_error_counterexample :
    (Integration261.run_simulation demo_stream id (fun _ => (195996 / 100000 : ℚ)) 0).sigma_sq
      = some 0 :=
  run_simulation_zero _ _ _

/-- C8, amended: no driver checks `N ≥ 2` and none raises a domain error. For
`N = 0` the function `run_simulation` of integration_261 returns the variance 0
(the unsigned `N - 1` wraps) after dividing `S` by zero for the mean; for `N = 1`
its variance is the non-finite `0 / 0`; the variance of integration_231 is
non-finite for `N = 0` and `N = 1`; and `montecarlo_couting` yields no result for
`N = 0` and `N = 1`, where it divides integers by zero. -/
theorem C8_no_domain_check (stream : Nat → Nat → α) (sqrt quantile : α → α)
    (num_threads : Nat) (extra_restrictions : Bool) (r S : Nat) (delta : α) :
    (Integration261.run_simulation stream sqrt quantile 0).sigma_sq = some 0 ∧
    (Integration261.run_simulation stream sqrt quantile 0).z_hat = none ∧
    (Integration261.run_simulation stream sqrt quantile 1).sigma_sq = none ∧
    (Integration231.run_simulation stream sqrt 0 num_threads extra_restrictions).variance = none ∧
    (Integration231.run_simulation stream sqrt 1 num_threads extra_restrictions).variance = none ∧
    estimates sqrt quantile r 0 S delta = none ∧
    estimates sqrt quantile r 1 S delta = none := by
  refine ⟨run_simulation_zero _ _ _, ?_, run_simulation_one _ _ _,
    (run_simulation_231_small stream sqrt num_threads extra_restrictions).1,
    (run_simulation_231_small stream sqrt num_threads extra_restrictions).2,
    estimates_zero _ _ _ _ _, estimates_one _ _ _ _ _⟩
  show fdiv _ ((0 : Nat) : α) = none
  rw [Nat.cast_zero]
  exact fdiv_zero_right _

end SmallCounts

/-! ## The worker blocks -/

section Blocks

open Integration231

variable {α : Type} [LinearOrderedField α]

/-- When `num_threads * N` does not wrap, the block of worker `i < num_threads`
runs from `i * N / num_threads` to `(i + 1) * N / num_threads`. -/
theorem block_bounds_of_lt (i N W : Nat) (hi : i < W) (hov : W * N < SIZE_MOD) :
    block_begin i N W = i * N / W ∧ block_end i N W = (i + 1) * N / W := by
  have h1 : i * N ≤ W * N := Nat.mul_le_mul_right N (le_of_lt hi)
  have h2 : (i + 1) * N ≤ W * N := Nat.mul_le_mul_right N hi
  unfold block_begin block_end
  rw [size_mul_of_lt i N (lt_of_le_of_lt h1 hov), size_mul_of_lt (i + 1) N (lt_of_le_of_lt h2 hov)]
  exact ⟨rfl, rfl⟩

/-- Consecutive block boundaries differ by the floor of `N / W` or by one more. -/
theorem block_step (i N W : Nat) (hW : 0 < W) :
    i * N / W + N / W ≤ (i + 1) * N / W ∧ (i + 1) * N / W ≤ i * N / W + N / W + 1 := by
  have e : (i + 1) * N = i * N + N := by ring
  rw [e, Nat.add_div hW]
  split <;> omega

/-- When `W` divides `N`, consecutive block boundaries differ by `N / W` exactly. -/
theorem block_step_of_dvd (i N W : Nat) (hW : 0 < W) (hd : W ∣ N) :
    (i + 1) * N / W = i * N / W + N / W := by
  obtain ⟨q, rfl⟩ := hd
  have e1 : (i + 1) * (W * q) = W * ((i + 1) * q) := by ring
  have e2 : i * (W * q) = W * (i * q) := by ring
  rw [e1, e2, Nat.mul_div_cancel_left _ hW, Nat.mul_div_cancel_left _ hW,
    Nat.mul_div_cancel_left _ hW]
  ring

/-- The generator of a worker advances by six values for each index of its block. -/
theorem worker_loop_pos (stream : Nat → Nat → α) (extra_restrictions : Bool)
    (lo : Nat) (init : Nat × sfmt_t) (n : Nat) :
    (for_loop
      (fun _ s =>
        let point := draw_vector stream s.2
        (if in_region extra_restrictions point.1 then s.1 + 1 else s.1, point.2))
      lo (lo + n) init).2.pos = init.2.pos + 6 * n := by
  induction n with
  | zero =>
    rw [Nat.add_zero, for_loop_empty _ _ _ _ (le_refl lo)]
    rfl
  | succ n ih =>
    rw [← Nat.add_assoc, for_loop_succ _ lo (lo + n) _ (Nat.le_add_right lo n)]
    show (draw_vector stream _).2.pos = _
    show (_ : sfmt_t).pos + 1 + 1 + 1 + 1 + 1 + 1 = _
    rw [ih]
    ring

/-- Worker `i` tosses as many points as its block has indices. -/
theorem worker_trials_eq (stream : Nat → Nat → α) (extra_restrictions : Bool)
    (N W i : Nat) :
    worker_trials stream extra_restrictions N W i = block_end i N W - block_begin i N W := by
  unfold worker_trials worker
  rcases Nat.le_total (block_end i N W) (block_begin i N W) with h | h
  · rw [for_loop_empty _ _ _ _ h, Nat.sub_eq_zero_of_le h]
    exact Nat.zero_div 6
  · obtain ⟨n, hn⟩ : ∃ n, block_end i N W = block_begin i N W + n :=
      ⟨block_end i N W - block_begin i N W, by omega⟩
    rw [hn, worker_loop_pos]
    show (0 + 6 * n) / 6 = _
    omega

/-- Without wrap-around the blocks of the first `k` workers hold `k * N / W`
indices together. -/
theorem trials_initial_sum (stream : Nat → Nat → α) (extra_restrictions : Bool)
    (N W : Nat) (hov : W * N < SIZE_MOD) (k : Nat) (hk : k ≤ W) :
    ((List.range k).map (worker_trials stream extra_restrictions N W)).sum = k * N / W := by
  induction k with
  | zero => simp
  | succ k ih =>
    have hW : 0 < W := by omega
    obtain ⟨hb, he⟩ := block_bounds_of_lt k N W (by omega) hov
    rw [List.range_succ, List.map_append, List.sum_append, ih (by omega)]
    simp only [List.map_cons, List.map_nil, List.sum_cons, List.sum_nil, Nat.add_zero]
    rw [worker_trials_eq, hb, he]
    have hstep := (block_step k N W hW).1
    exact Nat.add_sub_of_le (le_trans (Nat.le_add_right _ _) hstep)

/-- Without wrap-around the workers toss `N` points together. -/
theorem total_trials_eq (stream : Nat → Nat → α) (extra_restrictions : Bool)
    (N W : Nat) (hW : 1 ≤ W) (hov : W * N < SIZE_MOD) :
    total_trials stream extra_restrictions N W = N := by
  unfold total_trials
  rw [trials_initial_sum stream extra_restrictions N W hov W (le_refl W)]
  exact Nat.mul_div_cancel_left N (by omega)

/-- The counter of a worker grows by at most one for each index of its block. -/
theorem worker_loop_acc (stream : Nat → Nat → α) (extra_restrictions : Bool)
    (lo : Nat) (init : Nat × sfmt_t) (n : Nat) :
    (for_loop
      (fun _ s =>
        let point := draw_vector stream s.2
        (if in_region extra_restrictions point.1 then s.1 + 1 else s.1, point.2))
      lo (lo + n) init).1 ≤ init.1 + n := by
  induction n with
  | zero =>
    rw [Nat.add_zero, for_loop_empty _ _ _ _ (le_refl lo)]
    exact le_refl _
  | succ n ih =>
    rw [← Nat.add_assoc, for_loop_succ _ lo (lo + n) _ (Nat.le_add_right lo n)]
    generalize for_loop _ lo (lo + n) init = s at ih ⊢
    show (if in_region extra_restrictions (draw_vector stream s.2).1 = true then s.1 + 1
      else s.1) ≤ _
    by_cases h : in_region extra_restrictions (draw_vector stream s.2).1 = true
    · rw [if_pos h]
      omega
    · rw [if_neg h]
      omega

/-- A worker counts at most as many hits as it tossed points. -/
theorem worker_acc_le_trials (stream : Nat → Nat → α) (extra_restrictions : Bool)
    (N W i : Nat) :
    (worker stream extra_restrictions N W i).1 ≤ worker_trials stream extra_restrictions N W i := by
  rw [worker_trials_eq]
  unfold worker
  rcases Nat.le_total (block_end i N W) (block_begin i N W) with h | h
  · rw [for_loop_empty _ _ _ _ h]
    exact Nat.zero_le _
  · obtain ⟨n, hn⟩ : ∃ n, block_end i N W = block_begin i N W + n :=
      ⟨block_end i N W - block_begin i N W, by omega⟩
    rw [hn]
    have hacc := worker_loop_acc stream extra_restrictions (block_begin i N W)
      (0, sfmt_init_gen_rand (size_mul (i + 1) 10000 % 2 ^ 32)) n
    rw [Nat.add_sub_cancel_left]
    exact le_of_le_of_eq hacc (Nat.zero_add n)

/-- Summing the slots from 0.0 gives the sum of the slots. -/
theorem foldl_add_eq_sum (l : List α) (a : α) :
    l.foldl (fun x y => x + y) a = a + l.sum := by
  induction l generalizing a with
  | nil => simp
  | cons b l ih =>
    rw [List.foldl_cons, ih, List.sum_cons]
    ring

theorem worker_trials_of_dvd (stream : Nat → Nat → α) (extra_restrictions : Bool)
    (N W i : Nat) (hi : i < W) (hov : W * N < SIZE_MOD) (hd : W ∣ N) :
    worker_trials stream extra_restrictions N W i = N / W := by
  obtain ⟨hb, he⟩ := block_bounds_of_lt i N W hi hov
  rw [worker_trials_eq, hb, he, block_step_of_dvd i N W (by omega) hd]
  exact Nat.add_sub_cancel_left _ _

theorem worker_trials_bounds (stream : Nat → Nat → α) (extra_restrictions : Bool)
    (N W i : Nat) (hi : i < W) (hov : W * N < SIZE_MOD) :
    N / W ≤ worker_trials stream extra_restrictions N W i ∧
    worker_trials stream extra_restrictions N W i ≤ N / W + 1 := by
  obtain ⟨hb, he⟩ := block_bounds_of_lt i N W hi hov
  obtain ⟨h1, h2⟩ := block_step i N W (by omega)
  rw [worker_trials_eq, hb, he]
  generalize (i + 1) * N / W = b at h1 h2 ⊢
  generalize i * N / W = a at h1 h2 ⊢
  generalize N / W = c at h1 h2 ⊢
  omega

/-- C9, as stated, fails: with `N = 10` and four workers (4 does not divide 10)
the blocks of workers 1 and 3 hold three indices, not `10 / 4 = 2`, and the
workers toss 10 points together, not fewer. -/
theorem C9_undercount_counterexample :
    ¬ (4 ∣ 10) ∧
    worker_trials demo_stream true 10 4 1 = 3 ∧
    worker_trials demo_stream true 10 4 3 = 3 ∧
    total_trials demo_stream true 10 4 = 10 := by
  refine ⟨by decide, ?_, ?_, total_trials_eq demo_stream true 10 4 (by decide) (by decide)⟩
  · rw [worker_trials_eq]
    decide
  · rw [worker_trials_eq]
    decide

/-- C9, amended: with worker `i` processing the indices from `i * N / num_workers`
up to `(i + 1) * N / num_workers` and `num_workers * N < 2^64`, every block holds
`N / num_workers` indices (integer division) or one more, whether or not `N` is
divisible by `num_workers`, and the workers process exactly `N` samples together:
nothing falls short. -/
theorem C9_blocks_cover_all (stream : Nat → Nat → α) (extra_restrictions : Bool)
    (N num_workers : Nat) (hW : 1 ≤ num_workers) (hov : num_workers * N < SIZE_MOD) :
    (∀ i : Nat, i < num_workers →
      worker_trials stream extra_restrictions N num_workers i
        = (i + 1) * N / num_workers - i * N / num_workers ∧
      N / num_workers ≤ worker_trials stream extra_restrictions N num_workers i ∧
      worker_trials stream extra_restrictions N num_workers i ≤ N / num_workers + 1) ∧
    total_trials stream extra_restrictions N num_workers = N := by
  refine ⟨fun i hi => ⟨?_, worker_trials_bounds stream extra_restrictions N num_workers i hi hov⟩,
    total_trials_eq stream extra_restrictions N num_workers hW hov⟩
  obtain ⟨hb, he⟩ := block_bounds_of_lt i N num_workers hi hov
  rw [worker_trials_eq, hb, he]

/-- Witness of C9 (amended): `N = 10` and four workers. -/
theorem C9_blocks_cover_all_witness :
    1 ≤ 4 ∧ 4 * 10 < SIZE_MOD ∧
    worker_trials demo_stream true 10 4 0 = 2 ∧
    worker_trials demo_stream true 10 4 1 = 3 ∧
    total_trials demo_stream true 10 4 = 10 := by
  obtain ⟨hw, ht⟩ := C9_blocks_cover_all demo_stream true 10 4 (by decide) (by decide)
  exact ⟨by decide, by decide, (hw 0 (by decide)).1, (hw 1 (by decide)).1, ht⟩

/-- C10, as stated, fails: with `N = 2^63` and two workers, which divide `N`, the
product `2 * N` wraps to 0, the block of worker 1 is empty and the workers toss
`2^62` points together, not `N`. -/
theorem C10_trials_counterexample :
    2 ∣ 2 ^ 63 ∧
    worker_trials demo_stream true (2 ^ 63) 2 1 = 0 ∧
    total_trials demo_stream true (2 ^ 63) 2 = 2 ^ 62 := by
  have h0 : worker_trials demo_stream true (2 ^ 63) 2 0 = 2 ^ 62 := by
    rw [worker_trials_eq]
    decide
  have h1 : worker_trials demo_stream true (2 ^ 63) 2 1 = 0 := by
    rw [worker_trials_eq]
    decide
  refine ⟨by decide, h1, ?_⟩
  show ((List.range 2).map (worker_trials demo_stream true (2 ^ 63) 2)).sum = 2 ^ 62
  simp only [List.range_succ, List.range_zero, List.nil_append, List.cons_append,
    List.map_cons, List.map_nil, List.sum_cons, List.sum_nil, h0, h1, Nat.add_zero]

/-- C10, amended: for every `N` and `num_workers ≥ 1` the workers toss together as
many points as the sum of their block sizes, each worker counts at most as many
hits as it tossed points, and the merged count is divided by `N`; whenever
`num_workers` divides `N` and `num_workers * N < 2^64`, every block holds exactly
`N / num_workers` samples and the sum equals that divisor `N`. -/
theorem C10_trials_sum (stream : Nat → Nat → α) (sqrt : α → α) (extra_restrictions : Bool)
    (N num_workers : Nat) (hW : 1 ≤ num_workers) :
    total_trials stream extra_restrictions N num_workers
      = ((List.range num_workers).map
          (fun i => block_end i N num_workers - block_begin i N num_workers)).sum ∧
    (∀ i : Nat, (worker stream extra_restrictions N num_workers i).1
      ≤ block_end i N num_workers - block_begin i N num_workers) ∧
    (run_simulation stream sqrt N num_workers extra_restrictions).lambda_hat
      = fdiv (((List.range num_workers).map
          (fun i => ((worker stream extra_restrictions N num_workers i).1 : α))).sum) (N : α) ∧
    (num_workers ∣ N → num_workers * N < SIZE_MOD →
      (∀ i : Nat, i < num_workers →
        block_end i N num_workers - block_begin i N num_workers = N / num_workers) ∧
      total_trials stream extra_restrictions N num_workers = N) := by
  refine ⟨?_, ?_, ?_, ?_⟩
  · unfold total_trials
    congr 1
    exact List.map_congr_left (fun i _ => worker_trials_eq stream extra_restrictions N num_workers i)
  · intro i
    rw [← worker_trials_eq stream extra_restrictions N num_workers i]
    exact worker_acc_le_trials stream extra_restrictions N num_workers i
  · show fdiv (List.foldl (fun a b => a + b) 0 _) (N : α) = _
    rw [foldl_add_eq_sum, zero_add]
  · intro hd hov
    refine ⟨fun i hi => ?_, total_trials_eq stream extra_restrictions N num_workers hW hov⟩
    rw [← worker_trials_eq stream extra_restrictions N num_workers i]
    exact worker_trials_of_dvd stream extra_restrictions N num_workers i hi hov hd

/-- Witness of C10 (amended): `N = 12` and four workers, three samples each. -/
theorem C10_trials_sum_witness :
    1 ≤ 4 ∧ 4 ∣ 12 ∧ 4 * 12 < SIZE_MOD ∧
    block_end 2 12 4 - block_begin 2 12 4 = 3 ∧
    total_trials demo_stream true 12 4 = 12 := by
  obtain ⟨_, _, _, h⟩ := C10_trials_sum demo_stream id true 12 4 (by decide)
  obtain ⟨hb, ht⟩ := h (by decide) (by decide)
  exact ⟨by decide, by decide, by decide, hb 2 (by decide), ht⟩

end Blocks

/-! ## va_simulation_411: the normalisation, and constant samples -/

section Normalisation

open Integration261

variable {α : Type} [LinearOrderedField α]

/-- For `2 ≤ N < 2^64` the call `run_simulation(N)` of va_simulation_411 returns
`T * A / (N - 1)`, with `T` the accumulator after the loop and
`A = radius * radius * M_PI`. -/
theorem sigma_sq_411 (stream : Nat → Nat → α) (sqrt log quantile : α → α) (pi : α) (N : Nat)
    (hN : 2 ≤ N) (hsz : N < SIZE_MOD) :
    (VaSimulation411.run_simulation stream sqrt log quantile pi N).sigma_sq
      = some ((accumulate (VaSimulation411.toss_point stream sqrt log) sqrt N).T
          * (radius α * radius α * pi) / ((N : α) - 1)) := by
  have hsub : size_sub N 1 = N - 1 := size_sub_one N (by omega) hsz
  have hc : ((N - 1 : Nat) : α) = (N : α) - 1 := by
    rw [Nat.cast_sub (by omega : 1 ≤ N), Nat.cast_one]
  have hn : (N : α) - 1 ≠ 0 := by
    have h2 : (2 : α) ≤ (N : α) := by exact_mod_cast hN
    have : (0 : α) < (N : α) - 1 := by linarith
    exact ne_of_gt this
  show fdiv _ ((size_sub N 1 : Nat) : α) = _
  rw [hsub, hc]
  unfold fdiv
  rw [if_neg hn]

/-- C11: the code multiplies the variance accumulator by `A = radius * radius * M_PI`
once (line 146), although its comment announces the square of the area: for every
`N` with `2 ≤ N < 2^64` the mean is `A * S_raw / N`, the returned `sigma_sq` is
`A * T_raw / (N - 1)`, with `T_raw` the sum of squared deviations of the samples,
and it is the value `A^2 * T_raw / (N - 1)` of the claim only when `A` is 0 or 1 or
all the samples are equal to their mean. -/
theorem C11_variance_scaled_once (stream : Nat → Nat → α) (sqrt log quantile : α → α)
    (pi : α) (N : Nat) (hN : 2 ≤ N) (hsz : N < SIZE_MOD) :
    (VaSimulation411.run_simulation stream sqrt log quantile pi N).z_hat
      = some ((∑ i in Finset.range N, sample (VaSimulation411.toss_point stream sqrt log) sqrt i)
          * (radius α * radius α * pi) / (N : α)) ∧
    (VaSimulation411.run_simulation stream sqrt log quantile pi N).sigma_sq
      = some ((∑ i in Finset.range N,
          (sample (VaSimulation411.toss_point stream sqrt log) sqrt i
            - (∑ i in Finset.range N,
                sample (VaSimulation411.toss_point stream sqrt log) sqrt i) / (N : α)) ^ 2)
          * (radius α * radius α * pi) / ((N : α) - 1)) ∧
    ((VaSimulation411.run_simulation stream sqrt log quantile pi N).sigma_sq
      = some ((radius α * radius α * pi) ^ 2
          * (∑ i in Finset.range N,
              (sample (VaSimulation411.toss_point stream sqrt log) sqrt i
                - (∑ i in Finset.range N,
                    sample (VaSimulation411.toss_point stream sqrt log) sqrt i) / (N : α)) ^ 2)
          / ((N : α) - 1))
      ↔ (radius α * radius α * pi = 0 ∨ radius α * radius α * pi = 1 ∨
          ∑ i in Finset.range N,
            (sample (VaSimulation411.toss_point stream sqrt log) sqrt i
              - (∑ i in Finset.range N,
                  sample (VaSimulation411.toss_point stream sqrt log) sqrt i) / (N : α)) ^ 2
            = 0)) := by
  obtain ⟨n, rfl⟩ : ∃ n, N = n + 1 := ⟨N - 1, by omega⟩
  have hinv := accumulate_invariant (VaSimulation411.toss_point stream sqrt log) sqrt n
  have hsig := sigma_sq_411 stream sqrt log quantile pi (n + 1) hN hsz
  rw [hinv.2.2] at hsig
  have hNα : ((n + 1 : Nat) : α) ≠ 0 := by
    have : (0 : α) < ((n + 1 : Nat) : α) := by exact_mod_cast Nat.succ_pos n
    exact ne_of_gt this
  have hn : ((n + 1 : Nat) : α) - 1 ≠ 0 := by
    have h2 : (2 : α) ≤ ((n + 1 : Nat) : α) := by exact_mod_cast hN
    have : (0 : α) < ((n + 1 : Nat) : α) - 1 := by linarith
    exact ne_of_gt this
  refine ⟨?_, hsig, ?_⟩
  · show fdiv _ ((n + 1 : Nat) : α) = _
    rw [hinv.2.1]
    unfold fdiv
    rw [if_neg hNα]
  · rw [hsig]
    generalize (∑ i in Finset.range (n + 1),
      (sample (VaSimulation411.toss_point stream sqrt log) sqrt i
        - (∑ i in Finset.range (n + 1),
            sample (VaSimulation411.toss_point stream sqrt log) sqrt i) / ((n + 1 : Nat) : α)) ^ 2)
      = T
    generalize radius α * radius α * pi = A
    constructor
    · intro h
      have h1 : T * A / (((n + 1 : Nat) : α) - 1) = A ^ 2 * T / (((n + 1 : Nat) : α) - 1) :=
        Option.some.inj h
      rw [div_left_inj' hn] at h1
      have h2 : A * (T * (1 - A)) = 0 := by linear_combination h1
      rcases mul_eq_zero.mp h2 with h3 | h3
      · exact Or.inl h3
      · rcases mul_eq_zero.mp h3 with h4 | h4
        · exact Or.inr (Or.inr h4)
        · exact Or.inr (Or.inl (by linarith))
    · rintro (h | h | h)
      · rw [h]
        simp
      · rw [h]
        simp
      · rw [h]
        simp

/-- Over the reals the area `radius * radius * pi` of the disc is neither 0 nor 1. -/
theorem disc_area_ne : radius ℝ * radius ℝ * Real.pi ≠ 0 ∧ radius ℝ * radius ℝ * Real.pi ≠ 1 := by
  have h3 := Real.pi_gt_three
  have h4 := Real.pi_le_four
  unfold radius
  constructor
  · have : (0 : ℝ) < 4 / 10 * (4 / 10) * Real.pi := by nlinarith
    exact ne_of_gt this
  · have : 4 / 10 * (4 / 10) * Real.pi < (1 : ℝ) := by nlinarith
    exact ne_of_lt this

/-- Witness of C11: over the reals, with the real square root, logarithm and `pi`,
a run on two samples returns the variance of the claim only if the two samples are
equal to their mean. -/
theorem C11_variance_scaled_once_witness :
    2 ≤ 2 ∧ 2 < SIZE_MOD ∧
    ((VaSimulation411.run_simulation (fun _ i => (i : ℝ) / 8) Real.sqrt Real.log
        (fun _ => 195996 / 100000) Real.pi 2).sigma_sq
      = some ((radius ℝ * radius ℝ * Real.pi) ^ 2
          * (∑ i in Finset.range 2,
              (sample (VaSimulation411.toss_point (fun _ i => (i : ℝ) / 8) Real.sqrt Real.log)
                  Real.sqrt i
                - (∑ i in Finset.range 2,
                    sample (VaSimulation411.toss_point (fun _ i => (i : ℝ) / 8) Real.sqrt
                      Real.log) Real.sqrt i) / ((2 : Nat) : ℝ)) ^ 2)
          / (((2 : Nat) : ℝ) - 1))
      → ∑ i in Finset.range 2,
          (sample (VaSimulation411.toss_point (fun _ i => (i : ℝ) / 8) Real.sqrt Real.log)
              Real.sqrt i
            - (∑ i in Finset.range 2,
                sample (VaSimulation411.toss_point (fun _ i => (i : ℝ) / 8) Real.sqrt
                  Real.log) Real.sqrt i) / ((2 : Nat) : ℝ)) ^ 2 = 0) := by
  refine ⟨by decide, by decide, fun h => ?_⟩
  rcases (C11_variance_scaled_once (fun _ i => (i : ℝ) / 8) Real.sqrt Real.log
    (fun _ => 195996 / 100000) Real.pi 2 (by decide) (by decide)).2.2.mp h with h0 | h1 | hT
  · exact absurd h0 disc_area_ne.1
  · exact absurd h1 disc_area_ne.2
  · exact hT

/-- The sum of squared deviations of equal samples is zero. -/
theorem sum_sq_dev_const (x : Nat → α) (k : α) (N : Nat) (hN : 1 ≤ N)
    (hk : ∀ i : Nat, i < N → x i = k) :
    ∑ i in Finset.range N, (x i - (∑ i in Finset.range N, x i) / (N : α)) ^ 2 = 0 := by
  have hNα : (N : α) ≠ 0 := by
    have : (0 : α) < (N : α) := by exact_mod_cast hN
    exact ne_of_gt this
  have hsum : ∑ i in Finset.range N, x i = (N : α) * k := by
    rw [Finset.sum_congr rfl (fun i hi => hk i (Finset.mem_range.mp hi))]
    simp
  rw [hsum, mul_div_cancel_left₀ k hNα]
  exact Finset.sum_eq_zero (fun i hi => by rw [hk i (Finset.mem_range.mp hi)]; ring)

/-- The rounded loop on equal samples `k`, when rounding leaves `0`, the counts
`1 .. n + 1` and the sums `j * k` unchanged: after `n + 1` samples `S` is
`(n + 1) * k` and `T` is 0. -/
theorem rounded_accumulate_const (rnd : α → α) (toss : sfmt_t → (α × α) × sfmt_t)
    (K : α × α → α) (k : α) (h0 : rnd 0 = 0) (n : Nat)
    (hk : ∀ i : Nat, i < n + 1 → K (toss (nth_state toss i)).1 = k)
    (hrep : ∀ j : Nat, 1 ≤ j → j ≤ n + 1 →
      rnd (j : α) = (j : α) ∧ rnd ((j : α) * k) = (j : α) * k) :
    (rounded_accumulate rnd toss K (n + 1)).rnd_state = nth_state toss (n + 1) ∧
    (rounded_accumulate rnd toss K (n + 1)).S = ((n + 1 : Nat) : α) * k ∧
    (rounded_accumulate rnd toss K (n + 1)).T = 0 := by
  induction n with
  | zero =>
    have e : rounded_accumulate rnd toss K 1
        = ⟨(toss (sfmt_init_gen_rand 35141)).2, K (toss (sfmt_init_gen_rand 35141)).1, 0⟩ :=
      for_loop_empty _ _ _ _ (le_refl 1)
    rw [e]
    refine ⟨rfl, ?_, rfl⟩
    show K (toss (nth_state toss 0)).1 = _
    rw [hk 0 (by omega)]
    simp
  | succ n ih =>
    obtain ⟨h1, h2, h3⟩ := ih (fun i hi => hk i (by omega))
      (fun j hj1 hj2 => hrep j hj1 (by omega))
    have e : rounded_accumulate rnd toss K (n + 2)
        = rounded_loop_body rnd toss K (n + 1) (rounded_accumulate rnd toss K (n + 1)) :=
      for_loop_succ _ 1 (n + 1) _ (by omega)
    rw [e]
    have hn : (((n + 1 : Nat) : α)) ≠ 0 := by
      have : (0 : α) < ((n + 1 : Nat) : α) := by exact_mod_cast Nat.succ_pos n
      exact ne_of_gt this
    have hkk : rnd k = k := by
      have := (hrep 1 (le_refl 1) (by omega)).2
      rwa [Nat.cast_one, one_mul] at this
    have hkn : K (toss (nth_state toss (n + 1))).1 = k := hk (n + 1) (by omega)
    refine ⟨?_, ?_, ?_⟩
    · show (toss (rounded_accumulate rnd toss K (n + 1)).rnd_state).2 = _
      rw [h1]
      rfl
    · show rnd ((rounded_accumulate rnd toss K (n + 1)).S
          + K (toss (rounded_accumulate rnd toss K (n + 1)).rnd_state).1) = _
      rw [h1, h2, hkn]
      have e2 : ((n + 1 : Nat) : α) * k + k = ((n + 1 + 1 : Nat) : α) * k := by
        push_cast
        ring
      rw [e2]
      exact (hrep (n + 1 + 1) (by omega) (le_refl _)).2
    · show rnd ((rounded_accumulate rnd toss K (n + 1)).T
          + rnd (rnd (1 - rnd (1 / rnd (((n + 1 + 1 : Nat) : α))))
            * rnd ((rnd (K (toss (rounded_accumulate rnd toss K (n + 1)).rnd_state).1
              - rnd ((rounded_accumulate rnd toss K (n + 1)).S
                / rnd ((n + 1 : Nat) : α)))) ^ 2))) = 0
      rw [h1, h2, h3, hkn, (hrep (n + 1) (by omega) (by omega)).1,
        mul_div_cancel_left₀ k hn, hkk, sub_self, h0]
      simp [h0]

/-- The loop of `run_simulation` in binary64 arithmetic on four samples that are
all the double nearest to 1/10. -/
theorem rounded_accumulate_tenth :
    (rounded_accumulate binary64_round (draw_point (fun _ _ => (0 : ℚ)))
      (fun _ => binary64_round (1 / 10)) 4).T = 3 / 2 ^ 114 := by
  set_option maxRecDepth 100000 in with_unfolding_all rfl

/-- Rounding to binary64 leaves 0, the counts 1, 2, 3 and their multiples of 8
unchanged. -/
theorem binary64_round_small :
    binary64_round 0 = 0 ∧
    ∀ j : Nat, 1 ≤ j → j ≤ 3 →
      binary64_round (j : ℚ) = (j : ℚ) ∧ binary64_round ((j : ℚ) * 8) = (j : ℚ) * 8 := by
  refine ⟨by with_unfolding_all rfl, fun j h1 h3 => ?_⟩
  interval_cases j
  · exact ⟨by with_unfolding_all rfl, by with_unfolding_all rfl⟩
  · exact ⟨by with_unfolding_all rfl, by with_unfolding_all rfl⟩
  · exact ⟨by with_unfolding_all rfl, by with_unfolding_all rfl⟩

/-- C12 fails in double arithmetic: on four samples that are all the double
nearest to 1/10 the sum of the first three is rounded up, so `S / 3` is not the
sample, and the loop of `run_simulation` (rounding to binary64 after every
operation) ends with `T = 3 / 2^114`, about 1.44e-34, which is not 0. -/
theorem C12_constant_samples_counterexample :
    binary64_round (1 / 10) = 3602879701896397 / 36028797018963968 ∧
    (rounded_accumulate binary64_round (draw_point (fun _ _ => (0 : ℚ)))
      (fun _ => binary64_round (1 / 10)) 4).T = 3 / 2 ^ 114 ∧
    (rounded_accumulate binary64_round (draw_point (fun _ _ => (0 : ℚ)))
      (fun _ => binary64_round (1 / 10)) 4).T ≠ 0 := by
  refine ⟨by with_unfolding_all rfl, rounded_accumulate_tenth, ?_⟩
  rw [rounded_accumulate_tenth]
  norm_num

/-- C12 (amended): for every `N ≥ 1` and every value `k`, when the `N` samples of
a run are all equal to `k` and rounding leaves 0, the counts `1 .. N` and the
running sums `j * k` for `j = 1 .. N` unchanged, the loop of `run_simulation`
with rounding after every operation ends with `S = N * k` and `T = 0`, and for
`2 ≤ N < 2^64` line 72 of integration_261 and lines 146-151 of va_simulation_411
then give `sigma_sq = 0`. With the identity for the rounding, which meets these
conditions for every `k`, this is the exact reading: there the loop leaves
`T = 0` and both drivers return `sigma_sq = 0`. -/
theorem C12_constant_samples (rnd : α → α) (toss : sfmt_t → (α × α) × sfmt_t)
    (K : α × α → α) (N : Nat) (k : α) (hN : 1 ≤ N)
    (hk : ∀ i : Nat, i < N → K (toss (nth_state toss i)).1 = k)
    (h0 : rnd 0 = 0)
    (hrep : ∀ j : Nat, 1 ≤ j → j ≤ N →
      rnd (j : α) = (j : α) ∧ rnd ((j : α) * k) = (j : α) * k) :
    (rounded_accumulate rnd toss K N).S = (N : α) * k ∧
    (rounded_accumulate rnd toss K N).T = 0 ∧
    (2 ≤ N → N < SIZE_MOD →
      Integration261.rounded_sigma_sq rnd toss K N = some 0 ∧
      ∀ pi : α, VaSimulation411.rounded_sigma_sq rnd toss K pi N = some 0) ∧
    (∀ sqrt : α → α, K = K_fn sqrt →
      rounded_accumulate id toss K N = accumulate toss sqrt N ∧
      (accumulate toss sqrt N).T = 0 ∧
      (2 ≤ N → N < SIZE_MOD → ∀ (stream : Nat → Nat → α) (quantile : α → α),
        toss = draw_point stream →
        (Integration261.run_simulation stream sqrt quantile N).sigma_sq = some 0) ∧
      (2 ≤ N → N < SIZE_MOD → ∀ (stream : Nat → Nat → α) (log quantile : α → α) (pi : α),
        toss = VaSimulation411.toss_point stream sqrt log →
        (VaSimulation411.run_simulation stream sqrt log quantile pi N).sigma_sq = some 0)) := by
  obtain ⟨n, rfl⟩ : ∃ n, N = n + 1 := ⟨N - 1, by omega⟩
  obtain ⟨_, hS, hT⟩ := rounded_accumulate_const rnd toss K k h0 n hk hrep
  refine ⟨hS, hT, ?_, ?_⟩
  · intro h2 hsz
    have hsub : size_sub (n + 1) 1 = n := size_sub_one (n + 1) (by omega) hsz
    have hd : rnd ((size_sub (n + 1) 1 : Nat) : α) ≠ 0 := by
      rw [hsub, (hrep n (by omega) (by omega)).1]
      have : (0 : α) < (n : α) := by exact_mod_cast (by omega : 0 < n)
      exact ne_of_gt this
    constructor
    · unfold Integration261.rounded_sigma_sq fdiv
      rw [hT, if_neg hd, zero_div, Option.map_some', h0]
    · intro pi
      unfold VaSimulation411.rounded_sigma_sq fdiv
      simp only [hT, zero_mul, h0, if_neg hd, zero_div, Option.map_some']
  · intro sqrt hK
    subst hK
    have hks : ∀ i : Nat, i < n + 1 → sample toss sqrt i = k := hk
    have hTe : (accumulate toss sqrt (n + 1)).T = 0 := by
      rw [(accumulate_invariant toss sqrt n).2.2]
      exact sum_sq_dev_const (sample toss sqrt) k (n + 1) hN hks
    refine ⟨rfl, hTe, ?_, ?_⟩
    · intro h2 hsz stream quantile htoss
      have hd : ((size_sub (n + 1) 1 : Nat) : α) ≠ 0 := by
        exact_mod_cast size_sub_one_ne_zero (n + 1) (by omega) hsz
      show fdiv (accumulate (draw_point stream) sqrt (n + 1)).T
        ((size_sub (n + 1) 1 : Nat) : α) = _
      rw [← htoss, hTe]
      unfold fdiv
      rw [if_neg hd, zero_div]
    · intro h2 hsz stream log quantile pi htoss
      rw [sigma_sq_411 stream sqrt log quantile pi (n + 1) h2 hsz, ← htoss, hTe]
      simp

/-- Witness of C12: on the stream that is constantly 1/2 every point is the centre
of the disc and every sample is 8; rounding to binary64 leaves 0, the counts
1, 2, 3 and the sums 8, 16, 24 unchanged, and a run of three samples in binary64
arithmetic ends with `S = 24` and `T = 0` and gives `sigma_sq = 0`. -/
theorem C12_constant_samples_witness :
    1 ≤ 3 ∧
    (∀ i : Nat, i < 3 →
      K_fn id (draw_point (fun _ _ => (1 / 2 : ℚ))
        (nth_state (draw_point (fun _ _ => (1 / 2 : ℚ))) i)).1 = 8) ∧
    binary64_round 0 = 0 ∧
    (∀ j : Nat, 1 ≤ j → j ≤ 3 →
      binary64_round (j : ℚ) = (j : ℚ) ∧ binary64_round ((j : ℚ) * 8) = (j : ℚ) * 8) ∧
    (rounded_accumulate binary64_round (draw_point (fun _ _ => (1 / 2 : ℚ))) (K_fn id) 3).S
      = ((3 : Nat) : ℚ) * 8 ∧
    (rounded_accumulate binary64_round (draw_point (fun _ _ => (1 / 2 : ℚ))) (K_fn id) 3).T = 0 ∧
    Integration261.rounded_sigma_sq binary64_round (draw_point (fun _ _ => (1 / 2 : ℚ)))
      (K_fn id) 3 = some 0 := by
  have hk : ∀ i : Nat, i < 3 →
      K_fn id (draw_point (fun _ _ => (1 / 2 : ℚ))
        (nth_state (draw_point (fun _ _ => (1 / 2 : ℚ))) i)).1 = 8 := by
    intro i _
    show K_fn id ((1 / 2 : ℚ), (1 / 2 : ℚ)) = 8
    norm_num [K_fn, center, sqradius, radius, height]
  obtain ⟨hS, hT, hs, _⟩ := C12_constant_samples binary64_round
    (draw_point (fun _ _ => (1 / 2 : ℚ))) (K_fn id) 3 8 (by decide) hk
    binary64_round_small.1 binary64_round_small.2
  exact ⟨by decide, hk, binary64_round_small.1, binary64_round_small.2, hS, hT,
    (hs (by decide) (by decide)).1⟩

end Normalisation

/-! ## counting_371: the degenerate Wald interval -/

section Degenerate

open Counting371

variable {α : Type} [LinearOrderedField α]

end Degenerate

/-! ## The command lines -/

section CommandLine

/-- C14, as stated, fails for counting_371: the argument `abc`, on which
`std::stoll` throws `std::invalid_argument`, ends `main` by an uncaught exception,
and without any argument `main` runs the estimation on 1000 samples and returns 0. -/
theorem C14_invalid_argument_counterexample :
    stoll_decimal "abc" = StollResult.invalid_argument ∧
    Counting371.main stoll_decimal ["counting_371", "abc"] = MainOutcome.terminated ∧
    (Counting371.main stoll_decimal ["counting_371", "abc"]).exit_code = none ∧
    Counting371.main stoll_decimal ["counting_371"] = MainOutcome.ran 1000 0 := by
  have h : stoll_decimal "abc" = StollResult.invalid_argument := by decide
  refine ⟨h, ?_, ?_, rfl⟩
  · show (match stoll_decimal "abc" with
      | .value v => MainOutcome.ran (ll_to_size_t (ll_to_int v)) 0
      | .invalid_argument => MainOutcome.terminated
      | .out_of_range => MainOutcome.terminated) = _
    rw [h]
  · show (match stoll_decimal "abc" with
      | .value v => MainOutcome.ran (ll_to_size_t (ll_to_int v)) 0
      | .invalid_argument => MainOutcome.terminated
      | .out_of_range => MainOutcome.terminated).exit_code = _
    rw [h]
    rfl

/-- C14, amended: in integration_231, integration_261, va_simulation_411 and
randomgen_481 a missing `N` ends `main` after the usage line with exit code 1, and
an `N` argument on which `std::stoll` throws `std::invalid_argument` is reported
and ends `main` with exit code 1, in both cases without any estimation being run;
in counting_371 the argument `N` is optional and a missing `N` runs the estimation
on the default of 1000 samples. -/
theorem C14_usage_and_invalid_argument (stoll : String → StollResult)
    (file_opens : String → Bool) (argv : List String) :
    (argv.length < 2 →
      Integration231.main stoll argv = MainOutcome.usage 1 ∧
      Integration261.main stoll argv = MainOutcome.usage 1 ∧
      VaSimulation411.main stoll argv = MainOutcome.usage 1 ∧
      Randomgen481.main stoll file_opens argv = MainOutcome.usage 1) ∧
    (∀ (prog arg : String) (rest : List String), argv = prog :: arg :: rest →
      stoll arg = StollResult.invalid_argument →
      Integration261.main stoll argv = MainOutcome.invalid_argument 1 ∧
      VaSimulation411.main stoll argv = MainOutcome.invalid_argument 1 ∧
      (rest.length ≤ 1 → Integration231.main stoll argv = MainOutcome.invalid_argument 1) ∧
      (1 ≤ rest.length →
        Randomgen481.main stoll file_opens argv = MainOutcome.invalid_argument 1)) ∧
    (argv.length < 2 → Counting371.main stoll argv = MainOutcome.ran 1000 0) ∧
    (MainOutcome.usage 1).exit_code = some 1 ∧
    (MainOutcome.usage 1).ran_estimation = false ∧
    (MainOutcome.invalid_argument 1).exit_code = some 1 ∧
    (MainOutcome.invalid_argument 1).ran_estimation = false := by
  refine ⟨?_, ?_, ?_, rfl, rfl, rfl, rfl⟩
  · intro h
    have h3 : argv.length < 3 := by omega
    refine ⟨?_, ?_, ?_, ?_⟩
    · unfold Integration231.main
      rw [if_pos (Or.inl h)]
    · unfold Integration261.main
      rw [if_pos h]
    · unfold VaSimulation411.main
      rw [if_pos h]
    · unfold Randomgen481.main
      rw [if_pos h3]
  · rintro prog arg rest rfl hs
    refine ⟨?_, ?_, ?_, ?_⟩
    · unfold Integration261.main
      rw [if_neg (by simp)]
      simp only [parse_N, hs]
    · unfold VaSimulation411.main
      rw [if_neg (by simp)]
      simp only [parse_N, hs]
    · intro hr
      unfold Integration231.main
      rw [if_neg (by simp only [List.length_cons]; omega)]
      simp only [parse_N, hs]
    · intro hr
      unfold Randomgen481.main
      rw [if_neg (by simp only [List.length_cons]; omega)]
      cases rest with
      | nil => simp at hr
      | cons file rest => simp only [parse_N, hs]
  · intro h
    match argv, h with
    | [], _ => rfl
    | [_], _ => rfl
    | _ :: _ :: _, h =>
      simp only [List.length_cons] at h
      omega

/-- Witness of C14 (amended): the argument `abc` given to integration_261 and to
integration_231. -/
theorem C14_usage_and_invalid_argument_witness :
    stoll_decimal "abc" = StollResult.invalid_argument ∧
    Integration261.main stoll_decimal ["integration_261", "abc"]
      = MainOutcome.invalid_argument 1 ∧
    Integration231.main stoll_decimal ["integration_231", "abc"]
      = MainOutcome.invalid_argument 1 ∧
    Integration231.main stoll_decimal ["integration_231"] = MainOutcome.usage 1 := by
  have h : stoll_decimal "abc" = StollResult.invalid_argument := by decide
  have h1 := (C14_usage_and_invalid_argument stoll_decimal (fun _ => true)
    ["integration_261", "abc"]).2.1 "integration_261" "abc" [] rfl h
  have h2 := (C14_usage_and_invalid_argument stoll_decimal (fun _ => true)
    ["integration_231", "abc"]).2.1 "integration_231" "abc" [] rfl h
  have h3 := (C14_usage_and_invalid_argument stoll_decimal (fun _ => true)
    ["integration_231"]).1 (by decide)
  exact ⟨h, h1.1, h2.2.2.1 (by decide), h3.1⟩

end CommandLine

/-! ## counting_371: the success counter -/

section Counter

open Counting371

/-- The loop invariant of `montecarlo_couting`: after `n` samples the counter is the
number of samples so far that every predicate accepts, and the solution maker is in
the state reached after `n` calls. -/
theorem count_successes_invariant {σ Sol : Type} (solution_maker : σ → Sol × σ)
    (subsets : List (Sol → Bool)) (st : σ) (n : Nat) :
    (count_successes solution_maker subsets n st).1
      = ((List.range n).filter
          (fun i => subsets.all (fun f => f (nth_solution solution_maker st i)))).length ∧
    (count_successes solution_maker subsets n st).2 = maker_state solution_maker st n := by
  unfold count_successes
  induction n with
  | zero =>
    rw [for_loop_empty _ _ _ _ (le_refl 0)]
    exact ⟨rfl, rfl⟩
  | succ n ih =>
    rw [for_loop_succ _ 0 n _ (Nat.zero_le n)]
    generalize for_loop _ 0 n (0, st) = s at ih ⊢
    obtain ⟨ih1, ih2⟩ := ih
    constructor
    · show (if subsets.all (fun f => f (solution_maker s.2).1) then s.1 + 1 else s.1) = _
      rw [List.range_succ, List.filter_append, List.length_append, ih1, ih2]
      by_cases h : subsets.all (fun f => f (solution_maker (maker_state solution_maker st n)).1)
          = true
      · rw [if_pos h]
        simp [nth_solution, h]
      · rw [if_neg h]
        simp [nth_solution, h]
    · show (solution_maker s.2).2 = _
      rw [ih2]
      rfl

/-- C15: for every `N`, every solution maker and every array of predicates, the
success counter `S` of `montecarlo_couting` is the number of the `N` samples that
satisfy all the predicates; the maker is called `N` times; `S` grows by 0 or 1 with
each sample, so `S ≤ N`; and with no predicate (`K = 0`) every sample counts. -/
theorem C15_success_counter {σ Sol : Type} (solution_maker : σ → Sol × σ)
    (subsets : List (Sol → Bool)) (N : Nat) (st : σ) :
    (count_successes solution_maker subsets N st).1
      = ((List.range N).filter
          (fun i => subsets.all (fun f => f (nth_solution solution_maker st i)))).length ∧
    (count_successes solution_maker subsets N st).2 = maker_state solution_maker st N ∧
    (count_successes solution_maker subsets N st).1
      ≤ (count_successes solution_maker subsets (N + 1) st).1 ∧
    (count_successes solution_maker subsets (N + 1) st).1
      ≤ (count_successes solution_maker subsets N st).1 + 1 ∧
    (count_successes solution_maker subsets N st).1 ≤ N ∧
    (count_successes solution_maker [] N st).1 = N := by
  have h := count_successes_invariant solution_maker subsets st
  refine ⟨(h N).1, (h N).2, ?_, ?_, count_successes_le solution_maker subsets N st, ?_⟩
  · rw [(h (N + 1)).1, (h N).1, List.range_succ, List.filter_append, List.length_append]
    exact Nat.le_add_right _ _
  · rw [(h (N + 1)).1, (h N).1, List.range_succ, List.filter_append, List.length_append]
    exact Nat.add_le_add_left (List.length_filter_le _ _) _
  · rw [(count_successes_invariant solution_maker [] st N).1]
    simp

end Counter

/-! ## The worker blocks partition the index range -/

section Partition

theorem boundary_mono (N W : Nat) {i j : Nat} (h : i ≤ j) : i * N / W ≤ j * N / W :=
  Nat.div_le_div_right (Nat.mul_le_mul_right N h)

/-- C16: for every `N` and `num_workers ≥ 1` with `num_workers * N < 2^64` the index
blocks from `i * N / num_workers` up to `(i + 1) * N / num_workers` are contiguous
and pairwise disjoint: block 0 starts at 0, each block ends where the next begins,
the last block ends at `N`, and every index below `N` lies in exactly one block. -/
theorem C16_blocks_partition (N num_workers : Nat) (hW : 1 ≤ num_workers)
    (hov : num_workers * N < SIZE_MOD) :
    block_begin 0 N num_workers = 0 ∧
    (∀ i : Nat, i + 1 < num_workers →
      block_end i N num_workers = block_begin (i + 1) N num_workers) ∧
    block_end (num_workers - 1) N num_workers = N ∧
    (∀ i : Nat, i < num_workers → block_begin i N num_workers ≤ block_end i N num_workers) ∧
    (∀ i j : Nat, i < j → j < num_workers →
      block_end i N num_workers ≤ block_begin j N num_workers) ∧
    (∀ t : Nat, t < N → ∃ i : Nat, i < num_workers ∧
      block_begin i N num_workers ≤ t ∧ t < block_end i N num_workers ∧
      ∀ j : Nat, j < num_workers → block_begin j N num_workers ≤ t →
        t < block_end j N num_workers → j = i) := by
  have hb : ∀ i : Nat, i < num_workers →
      block_begin i N num_workers = i * N / num_workers ∧
      block_end i N num_workers = (i + 1) * N / num_workers :=
    fun i hi => block_bounds_of_lt i N num_workers hi hov
  have hlast : (num_workers - 1 + 1) * N / num_workers = N := by
    rw [Nat.sub_add_cancel hW]
    exact Nat.mul_div_cancel_left N (by omega)
  refine ⟨?_, ?_, ?_, ?_, ?_, ?_⟩
  · rw [(hb 0 (by omega)).1, Nat.zero_mul, Nat.zero_div]
  · intro i hi
    rw [(hb i (by omega)).2, (hb (i + 1) hi).1]
  · rw [(hb (num_workers - 1) (by omega)).2, hlast]
  · intro i hi
    rw [(hb i hi).1, (hb i hi).2]
    exact boundary_mono N num_workers (Nat.le_succ i)
  · intro i j hij hj
    rw [(hb i (by omega)).2, (hb j hj).1]
    exact boundary_mono N num_workers hij
  · intro t ht
    have hex : ∃ i : Nat, t < (i + 1) * N / num_workers := ⟨num_workers - 1, by rw [hlast]; exact ht⟩
    have hfind := Nat.find_spec hex
    have hle : Nat.find hex ≤ num_workers - 1 := Nat.find_min' hex (by rw [hlast]; exact ht)
    have hlt : Nat.find hex < num_workers := by omega
    have hlow : Nat.find hex * N / num_workers ≤ t := by
      rcases Nat.eq_zero_or_pos (Nat.find hex) with h0 | hpos
      · rw [h0, Nat.zero_mul, Nat.zero_div]
        exact Nat.zero_le t
      · have hmin := Nat.find_min hex (Nat.sub_lt hpos Nat.one_pos)
        rw [Nat.sub_add_cancel hpos] at hmin
        exact Nat.le_of_not_lt hmin
    refine ⟨Nat.find hex, hlt, ?_, ?_, ?_⟩
    · rw [(hb _ hlt).1]
      exact hlow
    · rw [(hb _ hlt).2]
      exact hfind
    · intro j hj hjb hje
      rw [(hb j hj).1] at hjb
      rw [(hb j hj).2] at hje
      rcases Nat.lt_trichotomy j (Nat.find hex) with h | h | h
      · have hm : (j + 1) * N / num_workers ≤ Nat.find hex * N / num_workers :=
          boundary_mono N num_workers h
        exact absurd (lt_of_lt_of_le hje (le_trans hm hlow)) (lt_irrefl t)
      · exact h
      · have hm : (Nat.find hex + 1) * N / num_workers ≤ j * N / num_workers :=
          boundary_mono N num_workers h
        exact absurd (lt_of_lt_of_le hfind (le_trans hm hjb)) (lt_irrefl t)

/-- Witness of C16: `N = 10` and four workers give the blocks 0-2, 2-5, 5-7, 7-10. -/
theorem C16_blocks_partition_witness :
    1 ≤ 4 ∧ 4 * 10 < SIZE_MOD ∧
    block_begin 0 10 4 = 0 ∧ block_end 0 10 4 = 2 ∧ block_end 1 10 4 = 5 ∧
    block_end 2 10 4 = 7 ∧ block_end 3 10 4 = 10 ∧
    block_end 1 10 4 = block_begin 2 10 4 := by
  obtain ⟨h0, hc, hl, _⟩ := C16_blocks_partition 10 4 (by decide) (by decide)
  exact ⟨by decide, by decide, h0, by decide, by decide, by decide, hl, hc 1 (by decide)⟩

end Partition

/-! ## counting_371: assignments stay within the professors -/

section Assignments

open Counting371

/-- The loop of `random_assignment` fills `n` entries, each below `NumProfessors`. -/
theorem random_assignment_loop_spec (stream32 : Nat → Nat → Nat) (P : Nat) (hP : 1 ≤ P)
    (st : sfmt_t) (n : Nat) :
    (random_assignment_loop stream32 n P st).1.length = n ∧
    ∀ x ∈ (random_assignment_loop stream32 n P st).1, x < P := by
  unfold random_assignment_loop
  induction n with
  | zero =>
    rw [for_loop_empty _ _ _ _ (le_refl 0)]
    exact ⟨rfl, fun x hx => absurd hx (List.not_mem_nil x)⟩
  | succ n ih =>
    rw [for_loop_succ _ 0 n _ (Nat.zero_le n)]
    generalize for_loop _ 0 n ([], st) = s at ih ⊢
    obtain ⟨ih1, ih2⟩ := ih
    constructor
    · show (s.1 ++ [(sfmt_genrand_uint32 stream32 s.2).1 % P]).length = n + 1
      rw [List.length_append, ih1]
      rfl
    · intro x hx
      have hx2 : x ∈ s.1 ++ [(sfmt_genrand_uint32 stream32 s.2).1 % P] := hx
      rcases List.mem_append.mp hx2 with h | h
      · exact ih2 x h
      · rw [List.mem_singleton.mp h]
        exact Nat.mod_lt _ (by omega)

/-- With every entry of the assignment below the number of professors and one
language mask for each student, no subscript of `language_matches` is out of bounds. -/
theorem language_matches_loop_in_bounds (professors students assignment : List Nat)
    (hlen : assignment.length ≤ students.length)
    (hlt : ∀ x ∈ assignment, x < professors.length) (remaining : Nat) :
    ∀ student : Nat, student + remaining ≤ assignment.length →
      (language_matches_loop professors students assignment student remaining).isSome = true := by
  induction remaining with
  | zero => intro student _; rfl
  | succ n ih =>
    intro student hs
    have h1 : student < assignment.length := by omega
    have h2 : assignment[student] < professors.length :=
      hlt _ (List.getElem_mem h1)
    have h3 : student < students.length := by omega
    unfold language_matches_loop
    rw [List.getElem?_eq_getElem h1, Option.some_bind, List.getElem?_eq_getElem h2,
      Option.some_bind, List.getElem?_eq_getElem h3, Option.some_bind]
    split
    · rfl
    · exact ih (student + 1) (by omega)

/-- With every entry of the assignment below the number of professors, no subscript
of `student_count_check` is out of bounds. -/
theorem count_fold_in_bounds (P : Nat) (assignment : List Nat)
    (hlt : ∀ x ∈ assignment, x < P) :
    ∀ tally : List Nat, tally.length = P →
      ∃ final : List Nat,
        assignment.foldl
          (fun (counts : Option (List Nat)) professor =>
            counts.bind (fun (tally : List Nat) =>
              tally[professor]?.map (fun count => tally.set professor (count + 1))))
          (some tally) = some final ∧ final.length = P := by
  induction assignment with
  | nil => intro tally ht; exact ⟨tally, rfl, ht⟩
  | cons a rest ih =>
    intro tally ht
    have ha : a < tally.length := by
      rw [ht]
      exact hlt a (List.mem_cons_self a rest)
    rw [List.foldl_cons, Option.some_bind, List.getElem?_eq_getElem ha, Option.map_some']
    exact ih (fun x hx => hlt x (List.mem_cons_of_mem a hx)) _
      (by rw [List.length_set]; exact ht)

/-- C18: for every generator output and `NumProfessors ≥ 1`, `random_assignment`
returns an array of `NumStudents` entries that all lie below `NumProfessors`; so
does every solution that `students_assignment` hands to the predicates, and on such
a solution the subscripts `professors[assignment[student]]` of `language_matches` and
`counts[professor]` of `student_count_check` are in bounds. -/
theorem C18_assignment_in_bounds (stream32 : Nat → Nat → Nat)
    (NumStudents NumProfessors : Nat) (hP : 1 ≤ NumProfessors) :
    (∀ st : sfmt_t, ∃ (a : List Nat) (st2 : sfmt_t),
      random_assignment stream32 NumStudents NumProfessors st = some (a, st2) ∧
      a.length = NumStudents ∧ ∀ x ∈ a, x < NumProfessors) ∧
    (∀ i : Nat,
      (nth_solution (random_assignment_loop stream32 NumStudents NumProfessors)
        (sfmt_init_gen_rand 54321) i).length = NumStudents ∧
      (∀ x ∈ nth_solution (random_assignment_loop stream32 NumStudents NumProfessors)
        (sfmt_init_gen_rand 54321) i, x < NumProfessors) ∧
      ∀ professors students : List Nat, professors.length = NumProfessors →
        students.length = NumStudents →
        (language_matches professors students
          (nth_solution (random_assignment_loop stream32 NumStudents NumProfessors)
            (sfmt_init_gen_rand 54321) i)).isSome = true ∧
        (student_count_check NumProfessors
          (nth_solution (random_assignment_loop stream32 NumStudents NumProfessors)
            (sfmt_init_gen_rand 54321) i)).isSome = true) := by
  constructor
  · intro st
    refine ⟨(random_assignment_loop stream32 NumStudents NumProfessors st).1,
      (random_assignment_loop stream32 NumStudents NumProfessors st).2, ?_,
      (random_assignment_loop_spec stream32 NumProfessors hP st NumStudents).1,
      (random_assignment_loop_spec stream32 NumProfessors hP st NumStudents).2⟩
    unfold random_assignment
    rw [if_neg (by omega)]
  · intro i
    obtain ⟨hl, hb⟩ := random_assignment_loop_spec stream32 NumProfessors hP
      (maker_state (random_assignment_loop stream32 NumStudents NumProfessors)
        (sfmt_init_gen_rand 54321) i) NumStudents
    refine ⟨hl, hb, fun professors students hp hs => ⟨?_, ?_⟩⟩
    · unfold language_matches
      exact language_matches_loop_in_bounds professors students _
        (by rw [hs]; exact le_of_eq hl) (by rw [hp]; exact hb) _ _ (by omega)
    · obtain ⟨final, hf, _⟩ := count_fold_in_bounds NumProfessors _ hb
        (List.replicate NumProfessors 0) (List.length_replicate _ _)
      unfold student_count_check nth_solution
      rw [hf]
      rfl

/-- Witness of C18: the ten students and four professors of `main`, on the stream
whose value at each position is the position. -/
theorem C18_assignment_in_bounds_witness :
    1 ≤ 4 ∧ professors.length = 4 ∧ students.length = 10 ∧
    (language_matches professors students
      (nth_solution (random_assignment_loop (fun _ i => i) 10 4)
        (sfmt_init_gen_rand 54321) 0)).isSome = true ∧
    (student_count_check 4
      (nth_solution (random_assignment_loop (fun _ i => i) 10 4)
        (sfmt_init_gen_rand 54321) 0)).isSome = true :=
  ⟨by decide, rfl, rfl,
    ((C18_assignment_in_bounds (fun _ i => i) 10 4 (by decide)).2 0).2.2
      professors students rfl rfl⟩

end Assignments

/-! ## total_work_time_estimation: the variance of the mean -/

section VarianceOfMean

open TotalWorkTime

variable {α : Type} [LinearOrderedField α]

/-- The loop of `estimate_range`, started at position 0 of the stream of `seed`:
after `n` indices the accumulator holds the sum and the sum of squares of the
first `n` samples of that stream. -/
theorem estimate_range_loop (stream : Nat → Nat → α) (seed lo n : Nat) :
    (estimate_range stream (sfmt_init_gen_rand seed) lo (lo + n)).1.simple
      = ((List.range n).map (fun m => (sample_time stream ⟨seed, 10 * m⟩).1)).sum ∧
    (estimate_range stream (sfmt_init_gen_rand seed) lo (lo + n)).1.squared
      = ((List.range n).map (fun m => (sample_time stream ⟨seed, 10 * m⟩).1
          * (sample_time stream ⟨seed, 10 * m⟩).1)).sum ∧
    (estimate_range stream (sfmt_init_gen_rand seed) lo (lo + n)).2 = ⟨seed, 10 * n⟩ := by
  unfold estimate_range
  induction n with
  | zero =>
    rw [Nat.add_zero, for_loop_empty _ _ _ _ (le_refl lo)]
    exact ⟨by simp, by simp, rfl⟩
  | succ n ih =>
    rw [← Nat.add_assoc, for_loop_succ _ lo (lo + n) _ (Nat.le_add_right lo n)]
    generalize for_loop _ lo (lo + n) ((⟨0, 0⟩ : acumulator α), sfmt_init_gen_rand seed) = s
      at ih ⊢
    obtain ⟨ih1, ih2, ih3⟩ := ih
    refine ⟨?_, ?_, ?_⟩
    · show s.1.simple + (sample_time stream s.2).1 = _
      rw [ih1, ih3, List.range_succ, List.map_append, List.sum_append]
      simp
    · show s.1.squared + (sample_time stream s.2).1 * (sample_time stream s.2).1 = _
      rw [ih2, ih3, List.range_succ, List.map_append, List.sum_append]
      simp
    · show (sample_time stream s.2).2 = _
      rw [ih3]
      show (⟨seed, 10 * n + 1 + 1 + 1 + 1 + 1 + 1 + 1 + 1 + 1 + 1⟩ : sfmt_t) = _
      congr 1

/-- The accumulator of worker `i` holds the sum and the sum of squares of its samples. -/
theorem worker_sums (stream : Nat → Nat → α) (N W i : Nat) :
    (worker stream N W i).simple = (worker_samples stream N W i).sum ∧
    (worker stream N W i).squared
      = ((worker_samples stream N W i).map (fun x => x * x)).sum := by
  rcases Nat.le_total (block_end i N W) (block_begin i N W) with h | h
  · unfold worker worker_samples estimate_range
    rw [for_loop_empty _ _ _ _ h, Nat.sub_eq_zero_of_le h]
    exact ⟨by simp, by simp⟩
  · obtain ⟨n, hn⟩ : ∃ n, block_end i N W = block_begin i N W + n :=
      ⟨block_end i N W - block_begin i N W, by omega⟩
    unfold worker worker_samples
    rw [hn, Nat.add_sub_cancel_left, List.map_map]
    exact ⟨(estimate_range_loop stream _ _ n).1, (estimate_range_loop stream _ _ n).2.1⟩

theorem foldl_simple_eq (l : List (acumulator α)) (a : α) :
    l.foldl (fun a slot => a + slot.simple) a = a + (l.map (fun slot => slot.simple)).sum := by
  induction l generalizing a with
  | nil => simp
  | cons b l ih =>
    rw [List.foldl_cons, ih, List.map_cons, List.sum_cons]
    ring

theorem foldl_squared_eq (l : List (acumulator α)) (a : α) :
    l.foldl (fun a slot => a + slot.squared) a = a + (l.map (fun slot => slot.squared)).sum := by
  induction l generalizing a with
  | nil => simp
  | cons b l ih =>
    rw [List.foldl_cons, ih, List.map_cons, List.sum_cons]
    ring

/-- A list sum as a sum over the positions of the list. -/
theorem list_sum_eq_sum_range (l : List α) (f : α → α) :
    (l.map f).sum = ∑ t in Finset.range l.length, f (l.getD t 0) := by
  induction l with
  | nil => simp
  | cons a l ih =>
    rw [List.map_cons, List.sum_cons, List.length_cons, Finset.sum_range_succ', ih]
    simp [add_comm]

/-- The merged accumulator holds the sum and the sum of squares of all the samples. -/
theorem merged_sums (stream : Nat → Nat → α) (N W : Nat) :
    ((List.range W).map (worker stream N W)).foldl (fun a slot => a + slot.simple) 0
      = (all_samples stream N W).sum ∧
    ((List.range W).map (worker stream N W)).foldl (fun a slot => a + slot.squared) 0
      = ((all_samples stream N W).map (fun x => x * x)).sum := by
  unfold all_samples
  constructor
  · rw [foldl_simple_eq, zero_add, List.sum_flatten, List.map_map, List.map_map]
    exact congrArg List.sum
      (List.map_congr_left (fun i _ => (worker_sums stream N W i).1))
  · rw [foldl_squared_eq, zero_add, List.map_flatten, List.sum_flatten, List.map_map,
      List.map_map, List.map_map]
    exact congrArg List.sum
      (List.map_congr_left (fun i _ => (worker_sums stream N W i).2))

/-- Without wrap-around the workers draw `N` samples together. -/
theorem all_samples_length (stream : Nat → Nat → α) (N W : Nat) (hW : 1 ≤ W)
    (hov : W * N < SIZE_MOD) : (all_samples stream N W).length = N := by
  have ht := total_trials_eq stream true N W hW hov
  unfold Integration231.total_trials at ht
  unfold all_samples
  rw [List.length_flatten, List.map_map]
  refine Eq.trans (congrArg List.sum (List.map_congr_left (fun i _ => ?_))) ht
  rw [worker_trials_eq]
  simp [worker_samples]

/-- The spec's recurrence ends with the sum of the observations and the sum of
their squared deviations from their mean. -/
theorem online_recurrence_spec (x : Nat → α) (n : Nat) :
    (online_recurrence x (n + 1)).1 = ∑ i in Finset.range (n + 1), x i ∧
    (online_recurrence x (n + 1)).2
      = ∑ i in Finset.range (n + 1),
          (x i - (∑ i in Finset.range (n + 1), x i) / ((n + 1 : Nat) : α)) ^ 2 := by
  unfold online_recurrence
  induction n with
  | zero =>
    rw [for_loop_empty _ _ _ _ (le_refl 1)]
    simp
  | succ n ih =>
    rw [for_loop_succ _ 1 (n + 1) _ (by omega)]
    generalize for_loop _ 1 (n + 1) (x 0, (0 : α)) = s at ih ⊢
    obtain ⟨ih1, ih2⟩ := ih
    constructor
    · show s.1 + x (n + 1) = _
      rw [ih1, Finset.sum_range_succ _ (n + 1)]
    · show s.2 + (1 - 1 / (((n + 1 + 1 : Nat) : α))) * (x (n + 1) - s.1 / ((n + 1 : Nat) : α)) ^ 2
        = _
      rw [ih1, ih2, welford_step x (n + 1) (by omega)]

/-- The loop of `run_simulation` of integration_261 is the spec's recurrence on the
samples of the run. -/
theorem accumulate_eq_online_recurrence (toss : sfmt_t → (α × α) × sfmt_t) (sqrt : α → α)
    (N : Nat) :
    ((Integration261.accumulate toss sqrt N).S, (Integration261.accumulate toss sqrt N).T)
      = online_recurrence (Integration261.sample toss sqrt) N := by
  rcases Nat.lt_or_ge N 1 with h | h
  · rw [accumulate_le_one toss sqrt N (by omega)]
    unfold online_recurrence
    rw [for_loop_empty _ _ _ _ (by omega)]
    rfl
  · obtain ⟨n, rfl⟩ : ∃ n, N = n + 1 := ⟨N - 1, by omega⟩
    obtain ⟨_, h1, h2⟩ := accumulate_invariant toss sqrt n
    obtain ⟨h3, h4⟩ := online_recurrence_spec (Integration261.sample toss sqrt) n
    rw [h1, h2]
    exact Prod.ext h3.symm h4.symm

/-- What `run_simulation` computes for `v_hat` when `2 ≤ N < 2^64` and the `size_t`
product `N * (N - 1)` is not zero. -/
theorem v_hat_eq (stream : Nat → Nat → α) (sqrt : α → α) (N W : Nat) (hN : 2 ≤ N)
    (hsz : N < SIZE_MOD) (hd : size_mul N (N - 1) ≠ 0) :
    (run_simulation stream sqrt N W).v_hat
      = some (((all_samples stream N W).map (fun x => x * x)).sum
            / ((size_mul N (N - 1) : Nat) : α)
          - (all_samples stream N W).sum / (N : α) * ((all_samples stream N W).sum / (N : α))
            / ((N - 1 : Nat) : α)) := by
  have hsub : size_sub N 1 = N - 1 := size_sub_one N (by omega) hsz
  have h1 : ((size_mul N (N - 1) : Nat) : α) ≠ 0 := by exact_mod_cast hd
  have h2 : (N : α) ≠ 0 := by
    have : (0 : α) < (N : α) := by exact_mod_cast (by omega : 0 < N)
    exact ne_of_gt this
  have h3 : ((N - 1 : Nat) : α) ≠ 0 := by
    have : (0 : α) < ((N - 1 : Nat) : α) := by exact_mod_cast (by omega : 0 < N - 1)
    exact ne_of_gt this
  show (fdiv _ ((size_mul N (size_sub N 1) : Nat) : α)).bind _ = _
  rw [hsub, (merged_sums stream N W).1, (merged_sums stream N W).2]
  unfold fdiv
  simp only [if_neg h1, if_neg h2, if_neg h3, Option.some_bind, Option.map_some']

/-- On the stream that is constantly 0 every sample of total_work_time_estimation
is 122. -/
theorem sample_time_zero_stream (st : sfmt_t) :
    (sample_time (fun _ _ => (0 : ℚ)) st).1 = 122 := by
  simp only [sample_time, sfmt_genrand_real1, unif_generator]
  norm_num

theorem all_samples_zero_stream (N W : Nat) (hW : 1 ≤ W) (hov : W * N < SIZE_MOD) :
    all_samples (fun _ _ => (0 : ℚ)) N W = List.replicate N 122 := by
  rw [List.eq_replicate_iff]
  refine ⟨all_samples_length _ N W hW hov, fun x hx => ?_⟩
  unfold all_samples at hx
  obtain ⟨l, hl, hxl⟩ := List.mem_flatten.mp hx
  obtain ⟨i, _, rfl⟩ := List.mem_map.mp hl
  unfold worker_samples at hxl
  obtain ⟨m, _, rfl⟩ := List.mem_map.mp hxl
  exact sample_time_zero_stream _

/-- On the stream that is constantly 0 the sample at every position of a run is 122. -/
theorem all_samples_zero_stream_getD (N W : Nat) (hW : 1 ≤ W) (hov : W * N < SIZE_MOD)
    (i : Nat) (hi : i < N) :
    (fun t => (all_samples (fun _ _ => (0 : ℚ)) N W).getD t 0) i = 122 := by
  show (all_samples (fun _ _ => (0 : ℚ)) N W).getD i 0 = 122
  rw [all_samples_zero_stream N W hW hov,
    List.getD_eq_getElem _ _ (by rw [List.length_replicate]; exact hi)]
  simp

/-- C17 at the failing input: with `N = 10^10` samples on eight workers the `size_t`
product `N * (N - 1)` wraps to 7766279621452241920; on the stream that is
constantly 0 every sample is 122, the online recurrence gives `T = 0`, hence the
variance of the mean 0, and `run_simulation` computes a `v_hat` that is not 0. -/
theorem C17_variance_of_mean_at_wrap :
    size_mul (10 ^ 10) (10 ^ 10 - 1) = 7766279621452241920 ∧
    (run_simulation (fun _ _ => (0 : ℚ)) id (10 ^ 10) 8).v_hat
      = some (268126307415129849856 / 15168514884132058511435109) ∧
    (online_recurrence
      (fun t => (all_samples (fun _ _ => (0 : ℚ)) (10 ^ 10) 8).getD t 0) (10 ^ 10)).2
        / (((10 ^ 10 : Nat) : ℚ) - 1) / ((10 ^ 10 : Nat) : ℚ) = 0 := by
  have hm : size_mul (10 ^ 10) (10 ^ 10 - 1) = 7766279621452241920 := by decide
  have hall := all_samples_zero_stream (10 ^ 10) 8 (by decide) (by decide)
  refine ⟨hm, ?_, ?_⟩
  · rw [v_hat_eq _ _ _ _ (by decide) (by decide) (by decide), hall, hm]
    simp only [List.map_replicate, List.sum_replicate, smul_eq_mul]
    norm_num
  · have hx : ∀ i : Nat, i < 10 ^ 10 →
        (fun t => (all_samples (fun _ _ => (0 : ℚ)) (10 ^ 10) 8).getD t 0) i = 122 :=
      all_samples_zero_stream_getD (10 ^ 10) 8 (by decide) (by decide)
    have h := (online_recurrence_spec
      (fun t => (all_samples (fun _ _ => (0 : ℚ)) (10 ^ 10) 8).getD t 0) (10 ^ 10 - 1)).2
    have e : 10 ^ 10 - 1 + 1 = 10 ^ 10 := by decide
    rw [e] at h
    rw [h, sum_sq_dev_const _ 122 (10 ^ 10) (by decide) hx]
    simp

/-- Below the wrap the code does what C17 says: for every `N ≥ 2` and `num_threads ≥ 1` with
`num_threads * N < 2^64` and `N * (N - 1) < 2^64`, the workers draw `N` samples
`x_1 .. x_N` together and the `v_hat` that `run_simulation` of
total_work_time_estimation computes from the merged sums is
`(sum x_i^2) / (N * (N - 1)) - x_hat^2 / (N - 1)` with `x_hat = (sum x_i) / N`; it
equals `T / ((N - 1) * N)` for the `T` that the online recurrence yields on the same
sequence, which is the recurrence the loop of integration_261 runs, and it is
non-negative. -/
theorem v_hat_refines_online_recurrence (stream : Nat → Nat → α) (sqrt : α → α) (N num_threads : Nat)
    (hN : 2 ≤ N) (hW : 1 ≤ num_threads) (hov : num_threads * N < SIZE_MOD)
    (hsq : N * (N - 1) < SIZE_MOD) :
    (all_samples stream N num_threads).length = N ∧
    (∃ v : α, (run_simulation stream sqrt N num_threads).v_hat = some v ∧
      v = (∑ t in Finset.range N, ((all_samples stream N num_threads).getD t 0) ^ 2)
            / ((N : α) * ((N : α) - 1))
          - ((∑ t in Finset.range N, (all_samples stream N num_threads).getD t 0) / (N : α)) ^ 2
            / ((N : α) - 1) ∧
      v = (online_recurrence (fun t => (all_samples stream N num_threads).getD t 0) N).2
            / (((N : α) - 1) * (N : α)) ∧
      0 ≤ v) ∧
    (∀ (toss : sfmt_t → (α × α) × sfmt_t) (sqrt2 : α → α),
      (Integration261.accumulate toss sqrt2 N).T
        = (online_recurrence (Integration261.sample toss sqrt2) N).2) := by
  have hlen := all_samples_length stream N num_threads hW hov
  have hsz : N < SIZE_MOD := by
    have : 1 * N ≤ num_threads * N := Nat.mul_le_mul_right N hW
    omega
  have hmul : size_mul N (N - 1) = N * (N - 1) := size_mul_of_lt N (N - 1) hsq
  have hpos : 0 < N * (N - 1) := Nat.mul_pos (by omega) (by omega)
  have hv := v_hat_eq stream sqrt N num_threads hN hsz (by rw [hmul]; omega)
  have hA : (all_samples stream N num_threads).sum
      = ∑ t in Finset.range N, (all_samples stream N num_threads).getD t 0 := by
    have := list_sum_eq_sum_range (all_samples stream N num_threads) (fun x => x)
    rw [List.map_id', hlen] at this
    exact this
  have hQ : ((all_samples stream N num_threads).map (fun x => x * x)).sum
      = ∑ t in Finset.range N, ((all_samples stream N num_threads).getD t 0) ^ 2 := by
    have := list_sum_eq_sum_range (all_samples stream N num_threads) (fun x => x * x)
    rw [hlen] at this
    rw [this]
    exact Finset.sum_congr rfl (fun t _ => (sq _).symm)
  have hNα : (2 : α) ≤ (N : α) := by exact_mod_cast hN
  have hN0 : (N : α) ≠ 0 := by
    have : (0 : α) < (N : α) := by linarith
    exact ne_of_gt this
  have hN1 : (N : α) - 1 ≠ 0 := by
    have : (0 : α) < (N : α) - 1 := by linarith
    exact ne_of_gt this
  have hc1 : ((N - 1 : Nat) : α) = (N : α) - 1 := by
    rw [Nat.cast_sub (by omega : 1 ≤ N), Nat.cast_one]
  have hc2 : ((size_mul N (N - 1) : Nat) : α) = (N : α) * ((N : α) - 1) := by
    rw [hmul, Nat.cast_mul, hc1]
  obtain ⟨n, hn⟩ : ∃ n, N = n + 1 := ⟨N - 1, by omega⟩
  have hT : (online_recurrence (fun t => (all_samples stream N num_threads).getD t 0) N).2
      = ∑ t in Finset.range N, ((all_samples stream N num_threads).getD t 0) ^ 2
        - (∑ t in Finset.range N, (all_samples stream N num_threads).getD t 0) ^ 2 / (N : α) := by
    have h := (online_recurrence_spec
      (fun t => (all_samples stream N num_threads).getD t 0) n).2
    rw [← hn] at h
    rw [h, sum_sq_dev]
    field_simp
    ring
  have hexpl : ((all_samples stream N num_threads).map (fun x => x * x)).sum
        / ((size_mul N (N - 1) : Nat) : α)
      - (all_samples stream N num_threads).sum / (N : α)
        * ((all_samples stream N num_threads).sum / (N : α)) / ((N - 1 : Nat) : α)
      = (∑ t in Finset.range N, ((all_samples stream N num_threads).getD t 0) ^ 2)
            / ((N : α) * ((N : α) - 1))
          - ((∑ t in Finset.range N, (all_samples stream N num_threads).getD t 0) / (N : α)) ^ 2
            / ((N : α) - 1) := by
    rw [hc1, hc2, hA, hQ]
    ring
  have hrec : (∑ t in Finset.range N, ((all_samples stream N num_threads).getD t 0) ^ 2)
            / ((N : α) * ((N : α) - 1))
          - ((∑ t in Finset.range N, (all_samples stream N num_threads).getD t 0) / (N : α)) ^ 2
            / ((N : α) - 1)
      = (online_recurrence (fun t => (all_samples stream N num_threads).getD t 0) N).2
            / (((N : α) - 1) * (N : α)) := by
    rw [hT]
    field_simp
    ring
  refine ⟨hlen, ⟨_, hv, hexpl, hexpl.trans hrec, ?_⟩, ?_⟩
  · rw [hexpl, hrec]
    refine div_nonneg ?_ (mul_nonneg (by linarith) (by linarith))
    have h := (online_recurrence_spec
      (fun t => (all_samples stream N num_threads).getD t 0) n).2
    rw [← hn] at h
    rw [h]
    exact Finset.sum_nonneg (fun i _ => sq_nonneg _)
  · intro toss sqrt2
    exact (congrArg Prod.snd (accumulate_eq_online_recurrence toss sqrt2 N))

/-- Four samples on two workers, on the example stream. -/
theorem v_hat_refines_online_recurrence_example :
    2 ≤ 4 ∧ 1 ≤ 2 ∧ 2 * 4 < SIZE_MOD ∧ 4 * (4 - 1) < SIZE_MOD ∧
    (all_samples demo_stream 4 2).length = 4 ∧
    ∃ v : ℚ, (run_simulation demo_stream id 4 2).v_hat = some v ∧ 0 ≤ v := by
  obtain ⟨hl, ⟨v, hv, _, _, h0⟩, _⟩ := v_hat_refines_online_recurrence demo_stream id 4 2
    (by decide) (by decide) (by decide) (by decide)
  exact ⟨by decide, by decide, by decide, by decide, hl, v, hv, h0⟩

end VarianceOfMean

end MMC
